import Mathlib

/-!
Verification of the word counter in `src/word_counter.py`.

The program is embedded shallowly over `List Char`.  Python strings are lists
of characters; every regular-expression substitution of the source is
translated into a recursive scanning function whose doc comment cites the
Python line and the exact regex it implements.  `re.sub` scans the subject
left to right, replaces the leftmost non-overlapping matches and resumes
after each match; the functions below follow that discipline literally.
-/

set_option maxHeartbeats 4000000

/-- Characters treated as whitespace by Python's `str.split()` / `str.strip()`
(the `str.isspace` set). -/
def pyIsSpace (c : Char) : Bool :=
  c = ' ' || c = '\t' || c = '\n' || c = '\x0b' || c = '\x0c' || c = '\r' ||
  c = '\x1c' || c = '\x1d' || c = '\x1e' || c = '\x1f' || c = '\x85' || c = '\xa0' ||
  c = '\u1680' || ('\u2000' ≤ c && c ≤ '\u200a') || c = '\u2028' || c = '\u2029' ||
  c = '\u202f' || c = '\u205f' || c = '\u3000'

/-- Line boundaries recognised by Python's `str.splitlines`
(`\r\n` is treated as a single boundary by `pySplitlines` below). -/
def isLineBoundary (c : Char) : Bool :=
  c = '\n' || c = '\r' || c = '\x0b' || c = '\x0c' ||
  c = '\x1c' || c = '\x1d' || c = '\x1e' || c = '\x85' || c = '\u2028' || c = '\u2029'

/-- Token-counting automaton: `tokAux b l` is the number of maximal runs of
non-whitespace characters in `l`, where `b` records whether the scan is
currently inside such a run. -/
def tokAux : Bool → List Char → Nat
  | _, [] => 0
  | b, c :: r => if pyIsSpace c then tokAux false r else (if b then 0 else 1) + tokAux true r

/-- `count_words` (`word_counter.py` lines 38-40): `len(text.split())`, the
number of whitespace-delimited non-empty tokens. -/
def count_words (l : List Char) : Nat := tokAux false l

theorem lengthDropWhileLe (p : Char → Bool) (l : List Char) :
    (l.dropWhile p).length ≤ l.length := by
  induction l with
  | nil => simp [List.dropWhile]
  | cons c r ih =>
    simp only [List.dropWhile]
    split
    · exact Nat.le_succ_of_le ih
    · exact Nat.le_refl _

/-- `re.sub(r'%.*', '', content)` (line 11).  From each `%` the match extends
over every following character except `'\n'` (`.` does not match a newline),
so scanning resumes at the next newline (or the end of the input). -/
def removeComments : List Char → List Char
  | [] => []
  | c :: r =>
    if c = '%' then removeComments (r.dropWhile (· ≠ '\n'))
    else c :: removeComments r
termination_by l => l.length
decreasing_by
  · exact Nat.lt_succ_of_le (lengthDropWhileLe _ _)
  · simp

/-- Drop everything up to and including the first occurrence of `pat`;
`none` when `pat` does not occur.  This is the effect of the reluctant
`[\s\S]*?pat` search used by the environment and display-math regexes. -/
def dropThroughFirst (pat : List Char) : List Char → Option (List Char)
  | [] => none
  | c :: rest =>
    if pat.isPrefixOf (c :: rest) then some ((c :: rest).drop pat.length)
    else dropThroughFirst pat rest

theorem dropThroughFirst_length {pat : List Char} :
    ∀ {l r : List Char}, dropThroughFirst pat l = some r → r.length ≤ l.length := by
  intro l
  induction l with
  | nil => intro r h; simp [dropThroughFirst] at h
  | cons c rest ih =>
    intro r h
    simp only [dropThroughFirst] at h
    split at h
    · cases h
      exact (List.length_drop _ _) ▸ Nat.sub_le _ _
    · exact Nat.le_succ_of_le (ih h)

/-- `re.sub(opn + r'[\s\S]*?' + cls, '', l)` for literal delimiter strings
`o :: os` and `cls` (used with `\begin{env}...\end{env}`, `$$...$$` and
`\[...\]`, lines 16-21).  At each position: if the opening delimiter matches
and the closing one occurs later, delete through the close and resume there;
otherwise move one character forward. -/
def subDelim (o : Char) (os cls : List Char) : List Char → List Char
  | [] => []
  | c :: rest =>
    if (o :: os).isPrefixOf (c :: rest) then
      match h : dropThroughFirst cls (rest.drop os.length) with
      | some rem => subDelim o os cls rem
      | none => c :: subDelim o os cls rest
    else c :: subDelim o os cls rest
termination_by l => l.length
decreasing_by
  · exact Nat.lt_succ_of_le (le_trans (dropThroughFirst_length h)
      ((List.length_drop _ _) ▸ Nat.sub_le _ _))
  · simp
  · simp

/-- Wrapper for `subDelim` taking the whole opening delimiter as one list
(all delimiters in the source are non-empty; an empty one is a no-op). -/
def subPair (opn cls : List Char) (l : List Char) : List Char :=
  match opn with
  | [] => l
  | o :: os => subDelim o os cls l

/-- `environments_to_remove` (line 14). -/
def envsToRemove : List (List Char) :=
  ["equation".data, "figure".data, "table".data, "tabular".data,
   "thebibliography".data, "verbatim".data, "tikzpicture".data]

/-- The literal text `\begin{env}`. -/
def beginPat (env : List Char) : List Char := "\\begin\x7b".data ++ env ++ "\x7d".data

/-- The literal text `\end{env}`. -/
def endPat (env : List Char) : List Char := "\\end\x7b".data ++ env ++ "\x7d".data

/-- Lines 15-17: for each listed environment, first
`re.sub(r'\begin{env}[\s\S]*?\end{env}', '', ...)` and then the same for the
starred variant `env*`. -/
def removeEnvs (l : List Char) : List Char :=
  envsToRemove.foldl
    (fun acc env =>
      subPair (beginPat (env ++ ['*'])) (endPat (env ++ ['*']))
        (subPair (beginPat env) (endPat env) acc)) l

/-- Scan for a closing `$` on the current line: `some rest` drops through the
first `$`, `none` when a newline (or the end) comes first. -/
def dropToDollar : List Char → Option (List Char)
  | [] => none
  | c :: r => if c = '$' then some r else if c = '\n' then none else dropToDollar r

theorem dropToDollar_length :
    ∀ {l r : List Char}, dropToDollar l = some r → r.length ≤ l.length := by
  intro l
  induction l with
  | nil => intro r h; simp [dropToDollar] at h
  | cons c rest ih =>
    intro r h
    simp only [dropToDollar] at h
    split at h
    · cases h; exact Nat.le_succ _
    · split at h
      · cases h
      · exact Nat.le_succ_of_le (ih h)

/-- `re.sub(r'\$.*?\$', '', content)` (line 22): reluctantly match `$...$`
within a single line (`.` does not match `'\n'`). -/
def subInline : List Char → List Char
  | [] => []
  | c :: rest =>
    if c = '$' then
      match h : dropToDollar rest with
      | some rem => subInline rem
      | none => c :: subInline rest
    else c :: subInline rest
termination_by l => l.length
decreasing_by
  · exact Nat.lt_succ_of_le (dropToDollar_length h)
  · simp
  · simp

/-- The group `(?:\\[[^\]]*?\])?` of the regex on line 25.  Because the `[`
after `\\` opens a character class, this group matches a literal backslash, a
reluctant run over the class `{'[', '^', ']'}` (hence a run of `[`/`^`), and
a closing `]` — it does *not* match a bracketed option `[...]`. -/
def scanClassToBracket : List Char → Option (List Char)
  | [] => none
  | c :: r =>
    if c = ']' then some r
    else if c = '[' || c = '^' then scanClassToBracket r
    else none

/-- Apply the optional group `(?:\\[[^\]]*?\])?`: drop a match when present,
otherwise leave the input unchanged. -/
def dropBracketOpt (l : List Char) : List Char :=
  match l with
  | [] => l
  | c :: r =>
    if c = '\\' then
      match scanClassToBracket r with
      | some rem => rem
      | none => c :: r
    else l

/-- Scan for a closing `}` on the current line (the group `(?:\{.*?\})?` is
reluctant and `.` does not match `'\n'`). -/
def dropToBrace : List Char → Option (List Char)
  | [] => none
  | c :: r => if c = '\x7d' then some r else if c = '\n' then none else dropToBrace r

/-- Apply the optional group `(?:\{.*?\})?`: drop `{...}` up to the first `}`
on the same line when present, otherwise leave the input unchanged. -/
def dropBraceOpt (l : List Char) : List Char :=
  match l with
  | [] => l
  | c :: r =>
    if c = '\x7b' then
      match dropToBrace r with
      | some rem => rem
      | none => c :: r
    else l

theorem scanClassToBracket_length :
    ∀ {l r : List Char}, scanClassToBracket l = some r → r.length ≤ l.length := by
  intro l
  induction l with
  | nil => intro r h; simp [scanClassToBracket] at h
  | cons c rest ih =>
    intro r h
    simp only [scanClassToBracket] at h
    split at h
    · cases h; exact Nat.le_succ _
    · split at h
      · exact Nat.le_succ_of_le (ih h)
      · cases h

theorem dropBracketOpt_length (l : List Char) : (dropBracketOpt l).length ≤ l.length := by
  cases l with
  | nil => simp [dropBracketOpt]
  | cons c r =>
    by_cases hc : c = '\\'
    · cases hscan : scanClassToBracket r with
      | none =>
        simp [dropBracketOpt, hc, hscan]
      | some rem =>
        have e : dropBracketOpt (c :: r) = rem := by simp [dropBracketOpt, hc, hscan]
        rw [e]
        exact Nat.le_succ_of_le (scanClassToBracket_length hscan)
    · simp [dropBracketOpt, hc]

theorem dropToBrace_length :
    ∀ {l r : List Char}, dropToBrace l = some r → r.length ≤ l.length := by
  intro l
  induction l with
  | nil => intro r h; simp [dropToBrace] at h
  | cons c rest ih =>
    intro r h
    simp only [dropToBrace] at h
    split at h
    · cases h; exact Nat.le_succ _
    · split at h
      · cases h
      · exact Nat.le_succ_of_le (ih h)

theorem dropBraceOpt_length (l : List Char) : (dropBraceOpt l).length ≤ l.length := by
  cases l with
  | nil => simp [dropBraceOpt]
  | cons c r =>
    by_cases hc : c = '\x7b'
    · cases hscan : dropToBrace r with
      | none =>
        simp [dropBraceOpt, hc, hscan]
      | some rem =>
        have e : dropBraceOpt (c :: r) = rem := by simp [dropBraceOpt, hc, hscan]
        rw [e]
        exact Nat.le_succ_of_le (dropToBrace_length hscan)
    · simp [dropBraceOpt, hc]

/-- `re.sub(r'\\[a-zA-Z]+(?:\\[[^\]]*?\])?(?:\{.*?\})?', '', content)`
(line 25): a backslash followed by a maximal run of ASCII letters, then the
two optional groups; the whole match is deleted and scanning resumes after
it.  (With `d` a letter, `(d :: t).dropWhile isAlpha = t.dropWhile isAlpha`;
the latter form is used for the recursive call.) -/
def subCmdArgs : List Char → List Char
  | [] => []
  | c :: rest =>
    if c = '\\' then
      match rest with
      | [] => ['\\']
      | d :: t =>
        if d.isAlpha then
          subCmdArgs (dropBraceOpt (dropBracketOpt (t.dropWhile Char.isAlpha)))
        else c :: subCmdArgs (d :: t)
    else c :: subCmdArgs rest
termination_by l => l.length
decreasing_by
  · exact Nat.lt_succ_of_le (Nat.le_succ_of_le (le_trans (dropBraceOpt_length _)
      (le_trans (dropBracketOpt_length _) (lengthDropWhileLe _ _))))
  · simp
  · simp

/-- `re.sub(r'\\[a-zA-Z]+', '', content)` (line 28): delete every remaining
backslash-plus-letters token. -/
def subCmdBare : List Char → List Char
  | [] => []
  | c :: rest =>
    if c = '\\' then
      match rest with
      | [] => ['\\']
      | d :: t =>
        if d.isAlpha then subCmdBare (t.dropWhile Char.isAlpha)
        else c :: subCmdBare (d :: t)
    else c :: subCmdBare rest
termination_by l => l.length
decreasing_by
  · exact Nat.lt_succ_of_le (Nat.le_succ_of_le (lengthDropWhileLe _ _))
  · simp
  · simp

/-- `re.sub(r'[\{\}]', '', content)` (line 31): delete every curly brace. -/
def removeBraces (l : List Char) : List Char :=
  l.filter (fun c => !(c = '\x7b' || c = '\x7d'))

/-- Python `str.splitlines`: split at every line boundary (consuming it,
with `\r\n` as one boundary); a trailing boundary produces no empty final
line, and the empty string has no lines. -/
def pySplitlines : List Char → List (List Char)
  | [] => []
  | '\r' :: '\n' :: r => [] :: pySplitlines r
  | c :: r =>
    if isLineBoundary c then [] :: pySplitlines r
    else
      match pySplitlines r with
      | [] => [[c]]
      | h :: t => (c :: h) :: t

/-- Python `str.strip()`: remove leading and trailing whitespace. -/
def pyStrip (l : List Char) : List Char :=
  List.rdropWhile pyIsSpace (l.dropWhile pyIsSpace)

/-- Line 34: `"\n".join([line.strip() for line in content.splitlines()])`. -/
def stripLines (l : List Char) : List Char :=
  List.intercalate ['\n'] ((pySplitlines l).map pyStrip)

/-- `clean_latex` (lines 5-36): the eight cleaning passes in source order. -/
def clean_latex (l : List Char) : List Char :=
  let c1 := removeComments l
  let c2 := removeEnvs c1
  let c3 := subPair "$$".data "$$".data c2
  let c4 := subPair "\\[".data "\\]".data c3
  let c5 := subInline c4
  let c6 := subCmdArgs c5
  let c7 := subCmdBare c6
  let c8 := removeBraces c7
  stripLines c8

/-- Python's `in` on strings: `containsSub pat l` is true when `pat` occurs
as a contiguous substring of `l`. -/
def containsSub (pat : List Char) : List Char → Bool
  | [] => pat.isEmpty
  | c :: rest => pat.isPrefixOf (c :: rest) || containsSub pat rest

/-- Line 48: the mode heuristic, substring containment of the three literal
markers. -/
def is_latex (l : List Char) : Bool :=
  containsSub "\\section".data l || containsSub "\\subsection".data l ||
  containsSub "\\documentclass".data l

/-- The group `([^}]+)`: the maximal non-empty run of non-`}` characters,
which must be followed by a literal `}`.  Returns the title and the
remainder after the closing brace. -/
def matchTitle (r2 : List Char) : Option (List Char × List Char) :=
  let title := r2.takeWhile (· ≠ '\x7d')
  if title.isEmpty then none
  else
    match r2.drop title.length with
    | '\x7d' :: rest => some (title, rest)
    | _ => none

/-- The part of the header regex after the keyword: `\*?{([^}]+)}`.  The
optional star is committed when present (if a `*` is not followed by `{`,
backtracking cannot succeed either since `*` is not `{`). -/
def matchHeaderTail (kw : List Char) :
    List Char → Option (List Char × List Char × List Char)
  | '*' :: '\x7b' :: r2 =>
    (matchTitle r2).map
      (fun p => ('\\' :: kw ++ '*' :: '\x7b' :: p.1 ++ ['\x7d'], p.1, p.2))
  | '\x7b' :: r2 =>
    (matchTitle r2).map
      (fun p => ('\\' :: kw ++ '\x7b' :: p.1 ++ ['\x7d'], p.1, p.2))
  | _ => none

/-- Try to match the regex `\\section\*?{([^}]+)}` (with `kw` in place of
`section`, lines 58-59) at the start of `l`.  On success, return the full
matched text (group 1 of the split pattern), the title (group 2), and the
remainder of `l`. -/
def matchHeaderAt (kw : List Char) (l : List Char) : Option (List Char × List Char × List Char) :=
  if ('\\' :: kw).isPrefixOf l then matchHeaderTail kw (l.drop (kw.length + 1))
  else none

/-- Left-to-right scan for the first header match (the search order of both
`re.split` and `re.search`): `some (before, full, title, after)` decomposes
the input around the first match. -/
def findHdr (kw : List Char) : List Char → Option (List Char × List Char × List Char × List Char)
  | [] => none
  | c :: rest =>
    match matchHeaderAt kw (c :: rest) with
    | some (full, t, after) => some ([], full, t, after)
    | none =>
      match findHdr kw rest with
      | some (b, full, t, a) => some (c :: b, full, t, a)
      | none => none

/-- `re.search(pattern, l)` reduced to what the program uses: the title
(group 1) of the first header match, if any. -/
def searchHdr (kw : List Char) (l : List Char) : Option (List Char) :=
  (findHdr kw l).map (fun x => x.2.2.1)

theorem matchTitle_length {r2 title rest : List Char} (h : matchTitle r2 = some (title, rest)) :
    rest.length < r2.length := by
  unfold matchTitle at h
  simp only at h
  split at h
  · cases h
  · split at h
    · next heq =>
      cases h
      have := congrArg List.length heq
      simp only [List.length_drop, List.length_cons] at this
      omega
    · cases h

theorem matchHeaderTail_length {kw r f t a : List Char}
    (h : matchHeaderTail kw r = some (f, t, a)) : a.length < r.length := by
  unfold matchHeaderTail at h
  split at h
  · rename_i r2
    cases hm : matchTitle r2 with
    | none => rw [hm] at h; cases h
    | some p =>
      obtain ⟨pt, pr⟩ := p
      rw [hm] at h
      cases h
      have h1 := matchTitle_length hm
      simp only [List.length_cons]
      omega
  · rename_i r2
    cases hm : matchTitle r2 with
    | none => rw [hm] at h; cases h
    | some p =>
      obtain ⟨pt, pr⟩ := p
      rw [hm] at h
      cases h
      have h1 := matchTitle_length hm
      simp only [List.length_cons]
      omega
  · cases h

theorem matchHeaderAt_length {kw l f t a : List Char}
    (h : matchHeaderAt kw l = some (f, t, a)) : a.length < l.length := by
  unfold matchHeaderAt at h
  split at h
  · have h1 := matchHeaderTail_length h
    have h2 : (l.drop (kw.length + 1)).length ≤ l.length := by
      simp only [List.length_drop]; omega
    omega
  · cases h

theorem findHdr_after_length {kw : List Char} :
    ∀ {l b f t a : List Char}, findHdr kw l = some (b, f, t, a) → a.length < l.length := by
  intro l
  induction l with
  | nil => intro b f t a h; simp [findHdr] at h
  | cons c rest ih =>
    intro b f t a h
    simp only [findHdr] at h
    split at h
    · next full t' after hm =>
      cases h
      exact matchHeaderAt_length hm
    · split at h
      · next b' full t' a' hf =>
        cases h
        exact Nat.lt_succ_of_le (Nat.le_of_lt (ih hf))
      · cases h

/-- `re.split(r'(' + pattern + r')', l)` (lines 62 and 86).  The pattern
already contains the capturing group `([^}]+)` for the title, so the split
pattern has *two* groups and every match contributes two captured elements:
the result is `before₁, full₁, title₁, before₂, full₂, title₂, …, rest`. -/
def splitCap (kw : List Char) (l : List Char) : List (List Char) :=
  match h : findHdr kw l with
  | none => [l]
  | some (b, full, t, a) => b :: full :: t :: splitCap kw a
termination_by l.length
decreasing_by
  exact findHdr_after_length h

/-- A produced subsection entry (`subsection_data`, line 107). -/
structure SubNode where
  title : List Char
  word_count : Nat
deriving DecidableEq

/-- A produced section entry (`section_data`, line 83). -/
structure SecNode where
  title : List Char
  word_count : Nat
  subsections : List SubNode
deriving DecidableEq

/-- The `results` dictionary (line 64): `preamble = none` models the empty
dict `{}`, which is falsy in `print_results`. -/
structure Results where
  total_words : Nat
  preamble : Option Nat
  sections : List SecNode
deriving DecidableEq

/-- What the program reports: a bare total in plain-text mode (line 53), a
result tree in LaTeX mode. -/
inductive Output where
  | plain (total : Nat)
  | latex (res : Results)
deriving DecidableEq

/-- The inner loop `for j in range(1, len(subsections), 2)` (lines 95-109),
expressed on the list of elements from index 1 on: each step examines the
pair `(subsections[j], subsections[j+1])`.  When `re.search` finds no header
in `subsections[j]` the loop continues; when it does and `j+1` is out of
range (the singleton case), `subsections[j+1]` would raise `IndexError`,
modelled by `none`.  A subsection is appended, and its count added, only when
its cleaned word count is positive (line 106). -/
def subLoop : List (List Char) → SecNode → Option SecNode
  | [], acc => some acc
  | [s], acc =>
    match searchHdr "subsection".data s with
    | none => some acc
    | some _ => none
  | s :: c :: rest, acc =>
    match searchHdr "subsection".data s with
    | none => subLoop rest acc
    | some t =>
      let wc := count_words (clean_latex c)
      if 0 < wc then
        subLoop rest ⟨acc.title, acc.word_count + wc, acc.subsections ++ [⟨t, wc⟩]⟩
      else subLoop rest acc

/-- The outer loop `for i in range(1, len(sections), 2)` (lines 75-112) on
the list of elements from index 1 on.  For a matching element the section
content is the *next* element; it is split on subsection headers, the part
before the first subsection header (`subsections[0]`) is cleaned and counted
as the intro, the rest is processed by `subLoop`, and the finished section's
count is added to the running total. -/
def secLoop : List (List Char) → Results → Option Results
  | [], acc => some acc
  | [s], acc =>
    match searchHdr "section".data s with
    | none => some acc
    | some _ => none
  | s :: c :: rest, acc =>
    match searchHdr "section".data s with
    | none => secLoop rest acc
    | some t =>
      match splitCap "subsection".data c with
      | [] => none
      | intro :: subsTail =>
        let introWc := count_words (clean_latex intro)
        match subLoop subsTail ⟨t, introWc, []⟩ with
        | none => none
        | some sec =>
          secLoop rest ⟨acc.total_words + sec.word_count, acc.preamble, acc.sections ++ [sec]⟩

/-- `parse_and_count` (lines 42-114).  Plain-text mode just counts the raw
tokens; LaTeX mode splits on section headers, the cleaned word count of
`sections[0]` becomes the preamble entry when positive, and the loop over
the remaining elements builds the section list.  `none` models an
uncaught `IndexError`. -/
def parse_and_count (content : List Char) : Option Output :=
  if is_latex content then
    match splitCap "section".data content with
    | [] => none
    | pre :: tail =>
      let preWc := count_words (clean_latex pre)
      let init : Results := if 0 < preWc then ⟨preWc, some preWc, []⟩ else ⟨0, none, []⟩
      (secLoop tail init).map Output.latex
  else some (Output.plain (count_words content))

/-- Decomposition of a character list into its `'\n'`-separated lines (all
boundary characters other than `'\n'` are ordinary characters here).  Used
only to state and prove properties; `List.intercalate ['\n']` is its
inverse. -/
def linesNl : List Char → List (List Char)
  | [] => [[]]
  | c :: r =>
    if c = '\n' then [] :: linesNl r
    else
      match linesNl r with
      | [] => [[c]]
      | h :: t => (c :: h) :: t

theorem splitCap_of_none {kw l : List Char} (h : findHdr kw l = none) :
    splitCap kw l = [l] := by
  rw [splitCap.eq_def, h]

theorem splitCap_of_some {kw l b f t a : List Char} (h : findHdr kw l = some (b, f, t, a)) :
    splitCap kw l = b :: f :: t :: splitCap kw a := by
  rw [splitCap.eq_def, h]

theorem clean_latex_nil : clean_latex [] = [] := by
  simp [clean_latex, removeComments, removeEnvs, envsToRemove, beginPat, endPat, subPair,
    subDelim, subInline, subCmdArgs, subCmdBare, removeBraces, stripLines, pySplitlines,
    pyStrip, List.rdropWhile, List.intercalate, List.intersperse]

theorem clean_latex_intro :
    clean_latex ['I', 'n', 't', 'r', 'o'] = ['I', 'n', 't', 'r', 'o'] := by
  simp [clean_latex, removeComments, removeEnvs, envsToRemove, beginPat, endPat, subPair,
    subDelim, dropThroughFirst, subInline, dropToDollar, subCmdArgs, subCmdBare,
    dropBracketOpt, scanClassToBracket, dropBraceOpt, dropToBrace, removeBraces,
    stripLines, pySplitlines, pyStrip, pyIsSpace, isLineBoundary, List.rdropWhile,
    List.intercalate, List.intersperse]

theorem clean_latex_a : clean_latex ['A'] = ['A'] := by
  simp [clean_latex, removeComments, removeEnvs, envsToRemove, beginPat, endPat, subPair,
    subDelim, dropThroughFirst, subInline, dropToDollar, subCmdArgs, subCmdBare,
    dropBracketOpt, scanClassToBracket, dropBraceOpt, dropToBrace, removeBraces,
    stripLines, pySplitlines, pyStrip, pyIsSpace, isLineBoundary, List.rdropWhile,
    List.intercalate, List.intersperse]

/-- C1: for the input `\section{Intro} Hello world. \subsection{Background}
Some background text here.` the claim expects no preamble, one section
"Intro" with intro word count 2, a subsection "Background" with 4 words, and
totals 6.  The program actually produces a total of 1: because `re.split`
returns `[pre, header, title, body]` for the doubly-grouped pattern, the loop
pairs the header with its own *title*, counts the single word "Intro", and
produces no subsection at all.  This theorem records what the code computes
on that exact input. -/
theorem c1_concrete_scenario_eval :
    parse_and_count "\\section\x7bIntro\x7d Hello world. \\subsection\x7bBackground\x7d Some background text here.".data =
      some (Output.latex ⟨1, none, [⟨"Intro".data, 1, []⟩]⟩) := by
  have hlat : is_latex "\\section\x7bIntro\x7d Hello world. \\subsection\x7bBackground\x7d Some background text here.".data = true := by decide
  have hf : findHdr "section".data "\\section\x7bIntro\x7d Hello world. \\subsection\x7bBackground\x7d Some background text here.".data =
      some ([], "\\section\x7bIntro\x7d".data, "Intro".data,
        " Hello world. \\subsection\x7bBackground\x7d Some background text here.".data) := by decide
  have hf2 : findHdr "section".data " Hello world. \\subsection\x7bBackground\x7d Some background text here.".data = none := by decide
  have hsplit := (splitCap_of_some hf).trans (by rw [splitCap_of_none hf2])
  have hfsubIntro : findHdr "subsection".data "Intro".data = none := by decide
  have hsplitsub := splitCap_of_none hfsubIntro
  have hs1 : searchHdr "section".data "\\section\x7bIntro\x7d".data = some "Intro".data := by decide
  have hs2 : searchHdr "section".data " Hello world. \\subsection\x7bBackground\x7d Some background text here.".data = none := by decide
  simp only [parse_and_count, hlat, if_true, hsplit, clean_latex_nil, secLoop, hs1, hs2,
    hsplitsub, clean_latex_intro, subLoop]
  decide

/-- C2: the claim says every `\section{...}` header yields exactly one
Section node, in order, counting the body up to the next header.  On
`\section{A} one \section{B} two` the program instead produces a single
section "A" with word count 1 (its own title) and drops section "B" and both
bodies: the doubly-grouped `re.split` result `[pre, hdr, title, body, ...]`
breaks the even/odd indexing the loop assumes.  This theorem records what
the code computes on that input. -/
theorem c2_second_section_dropped_eval :
    parse_and_count "\\section\x7bA\x7d one \\section\x7bB\x7d two".data =
      some (Output.latex ⟨1, none, [⟨"A".data, 1, []⟩]⟩) := by
  have hlat : is_latex "\\section\x7bA\x7d one \\section\x7bB\x7d two".data = true := by decide
  have hf : findHdr "section".data "\\section\x7bA\x7d one \\section\x7bB\x7d two".data =
      some ([], "\\section\x7bA\x7d".data, "A".data, " one \\section\x7bB\x7d two".data) := by decide
  have hf2 : findHdr "section".data " one \\section\x7bB\x7d two".data =
      some (" one ".data, "\\section\x7bB\x7d".data, "B".data, " two".data) := by decide
  have hf3 : findHdr "section".data " two".data = none := by decide
  have hsplit := (splitCap_of_some hf).trans
    (by rw [splitCap_of_some hf2, splitCap_of_none hf3])
  have hfsubA : findHdr "subsection".data "A".data = none := by decide
  have hsplitsub := splitCap_of_none hfsubA
  have hs1 : searchHdr "section".data "\\section\x7bA\x7d".data = some "A".data := by decide
  have hs2 : searchHdr "section".data " one ".data = none := by decide
  have hs3 : searchHdr "section".data "B".data = none := by decide
  have hs4 : searchHdr "section".data " two".data = none := by decide
  simp only [parse_and_count, hlat, if_true, hsplit, clean_latex_nil, secLoop, hs1, hs2,
    hs3, hs4, hsplitsub, clean_latex_a, subLoop]
  decide

/-- C6: the claim says cleaning `\cmd[opt]{arg}` removes the command name
together with the option `[opt]` and the argument braces.  In the source the
option group is written `(?:\\[[^\]]*?\])?`, whose `\\[` is a literal
backslash followed by a character-class opening, so it never matches a real
`[...]` option: cleaning `\cmd[opt]{arg}` leaves `[opt]arg` (only the braces
are later stripped).  This theorem records the actual value. -/
theorem c6_bracket_option_survives :
    clean_latex "\\cmd[opt]\x7barg\x7d".data = "[opt]arg".data := by
  simp [clean_latex, removeComments, removeEnvs, envsToRemove, beginPat, endPat, subPair,
    subDelim, dropThroughFirst, subInline, dropToDollar, subCmdArgs, subCmdBare,
    dropBracketOpt, scanClassToBracket, dropBraceOpt, dropToBrace, removeBraces,
    stripLines, pySplitlines, pyStrip, pyIsSpace, isLineBoundary, List.rdropWhile,
    List.intercalate, List.intersperse]

/-- C4: an input containing none of the literal substrings `\section`,
`\subsection`, `\documentclass` is classified as plain text, and the program
reports the whitespace-token count of the raw input, with no cleaning. -/
theorem c4_plain_text_mode (l : List Char)
    (h1 : containsSub "\\section".data l = false)
    (h2 : containsSub "\\subsection".data l = false)
    (h3 : containsSub "\\documentclass".data l = false) :
    is_latex l = false ∧ parse_and_count l = some (Output.plain (count_words l)) := by
  have hl : is_latex l = false := by simp [is_latex, h1, h2, h3]
  exact ⟨hl, by simp [parse_and_count, hl]⟩

theorem c4_plain_text_mode_witness :
    is_latex "Just plain text with five words".data = false ∧
    parse_and_count "Just plain text with five words".data =
      some (Output.plain (count_words "Just plain text with five words".data)) :=
  c4_plain_text_mode "Just plain text with five words".data (by decide) (by decide) (by decide)

/-- C5 counterexample: the claim says an escaped percent `\%` does not start
a comment, so text after `\%` on the same line survives the comment-removal
step.  The regex is plain `%.*`, which ignores escaping: on `a \%x b` the
step deletes `%x b`, leaving `a \` — the text after the escaped percent *is*
removed. -/
theorem c5_escaped_percent_counterexample :
    removeComments "a \\%x b".data = "a \\".data := by
  simp [removeComments]

theorem dropWhileNeNlAppend (b c : List Char) (hb : '\n' ∉ b) :
    (b ++ '\n' :: c).dropWhile (fun x => !decide (x = '\n')) = '\n' :: c := by
  induction b with
  | nil => simp [List.dropWhile]
  | cons d b' ih =>
    have hd : d ≠ '\n' := fun h => hb (h ▸ List.mem_cons_self d b')
    simp only [List.cons_append, List.dropWhile]
    rw [show (!decide (d = '\n')) = true from by simp [hd]]
    exact ih (fun h => hb (List.mem_cons_of_mem d h))

/-- C5 amended: the comment-removal step deletes everything from the first
`%` of a line — escaped or not — up to the end of that line: for any line
prefix `a` without `%` or newline (in particular `a` may end in a
backslash), any same-line tail `b`, and any continuation `c`,
`removeComments (a ++ '%' :: b ++ '\n' :: c)` keeps `a`, drops `'%' :: b`,
and continues at the newline. -/
theorem c5_comment_removal_amended (a b c : List Char)
    (ha1 : '%' ∉ a) (ha2 : '\n' ∉ a) (hb : '\n' ∉ b) :
    removeComments (a ++ '%' :: (b ++ '\n' :: c)) = a ++ '\n' :: removeComments c := by
  induction a with
  | nil =>
    simp [removeComments, dropWhileNeNlAppend b c hb]
  | cons d a' ih =>
    have hd : d ≠ '%' := fun h => ha1 (h ▸ List.mem_cons_self d a')
    simp only [List.cons_append, removeComments, if_neg hd]
    rw [ih (fun h => ha1 (List.mem_cons_of_mem d h)) (fun h => ha2 (List.mem_cons_of_mem d h))]

theorem c5_comment_removal_amended_witness :
    removeComments ("ab \\".data ++ '%' :: ("x y".data ++ '\n' :: "tail".data)) =
      "ab \\".data ++ '\n' :: removeComments "tail".data :=
  c5_comment_removal_amended "ab \\".data "x y".data "tail".data
    (by decide) (by decide) (by decide)

theorem subLoop_spec (l : List (List Char)) (acc : SecNode) :
    ∀ sec, subLoop l acc = some sec →
      ∃ added : List SubNode,
        sec.title = acc.title ∧
        sec.subsections = acc.subsections ++ added ∧
        sec.word_count = acc.word_count + (added.map SubNode.word_count).sum ∧
        ∀ a ∈ added, 0 < a.word_count := by
  induction l, acc using subLoop.induct with
  | case1 acc =>
    intro sec h
    simp only [subLoop] at h
    cases h
    exact ⟨[], rfl, by simp, by simp, by simp⟩
  | case2 s acc hs =>
    intro sec h
    simp only [subLoop, hs] at h
    cases h
    exact ⟨[], rfl, by simp, by simp, by simp⟩
  | case3 s acc t hs =>
    intro sec h
    simp only [subLoop, hs] at h
    exact Option.noConfusion h
  | case4 s c rest acc hs ih =>
    intro sec h
    simp only [subLoop, hs] at h
    exact ih sec h
  | case5 s c rest acc t hs wc hpos ih =>
    intro sec h
    simp only [subLoop, hs] at h
    rw [if_pos hpos] at h
    obtain ⟨added, h1, h2, h3, h4⟩ := ih sec h
    refine ⟨⟨t, count_words (clean_latex c)⟩ :: added, h1, ?_, ?_, ?_⟩
    · simpa [List.append_assoc] using h2
    · simp only [List.map_cons, List.sum_cons] at h3 ⊢
      omega
    · intro a ha
      rcases List.mem_cons.mp ha with h' | h'
      · subst h'; simpa using hpos
      · exact h4 a h'
  | case6 s c rest acc t hs wc hneg ih =>
    intro sec h
    simp only [subLoop, hs] at h
    rw [if_neg hneg] at h
    exact ih sec h

theorem secLoop_spec (l : List (List Char)) (acc : Results) :
    ∀ r, secLoop l acc = some r →
      ∃ added : List SecNode,
        r.preamble = acc.preamble ∧
        r.sections = acc.sections ++ added ∧
        r.total_words = acc.total_words + (added.map SecNode.word_count).sum ∧
        ∀ s ∈ added, (∀ sub ∈ s.subsections, 0 < sub.word_count) ∧
          ∃ intro, s.word_count = intro + (s.subsections.map SubNode.word_count).sum := by
  induction l, acc using secLoop.induct with
  | case1 acc =>
    intro r h
    simp only [secLoop] at h
    cases h
    exact ⟨[], rfl, by simp, by simp, by simp⟩
  | case2 s acc hs =>
    intro r h
    simp only [secLoop, hs] at h
    cases h
    exact ⟨[], rfl, by simp, by simp, by simp⟩
  | case3 s acc t hs =>
    intro r h
    simp only [secLoop, hs] at h
    exact Option.noConfusion h
  | case4 s c rest acc hs ih =>
    intro r h
    simp only [secLoop, hs] at h
    exact ih r h
  | case5 s c rest acc t hs hsc =>
    intro r h
    simp only [secLoop, hs, hsc] at h
    exact Option.noConfusion h
  | case6 s c rest acc t hs intr subsTail hsc introWc hsub =>
    intro r h
    simp only [secLoop, hs, hsc, hsub] at h
    exact Option.noConfusion h
  | case7 s c rest acc t hs intr subsTail hsc introWc sec hsub ih =>
    intro r h
    simp only [secLoop, hs, hsc, hsub] at h
    obtain ⟨added, h1, h2, h3, h4⟩ := ih r h
    obtain ⟨added2, g1, g2, g3, g4⟩ := subLoop_spec _ _ sec hsub
    refine ⟨sec :: added, h1, ?_, ?_, ?_⟩
    · simpa [List.append_assoc] using h2
    · simp only [List.map_cons, List.sum_cons] at h3 ⊢
      omega
    · intro s' hs'
      rcases List.mem_cons.mp hs' with h' | h'
      · subst h'
        constructor
        · intro sub hsub'
          apply g4
          simpa [g2] using hsub'
        · refine ⟨count_words (clean_latex intr), ?_⟩
          simp only [g2, g3]
          simp
      · exact h4 s' h'

/-- C3: in LaTeX mode the reported total always equals the preamble count
(0 when the preamble is omitted) plus the sum of the section counts, and
each section's count decomposes as its intro count plus the sum of its
retained subsections' counts. -/
theorem c3_sum_law (content : List Char) (r : Results)
    (h : parse_and_count content = some (Output.latex r)) :
    r.total_words = r.preamble.getD 0 + (r.sections.map SecNode.word_count).sum ∧
    ∀ s ∈ r.sections, ∃ intro,
      s.word_count = intro + (s.subsections.map SubNode.word_count).sum := by
  unfold parse_and_count at h
  split at h
  · cases hsc : splitCap "section".data content with
    | nil => rw [hsc] at h; exact Option.noConfusion h
    | cons pre tail =>
      rw [hsc] at h
      simp only [] at h
      by_cases hpre : 0 < count_words (clean_latex pre)
      · rw [if_pos hpre] at h
        cases hml : secLoop tail ⟨count_words (clean_latex pre),
            some (count_words (clean_latex pre)), []⟩ with
        | none => rw [hml] at h; exact Option.noConfusion h
        | some r' =>
          rw [hml] at h
          have hr : r' = r := by simpa using h
          subst hr
          obtain ⟨added, h1, h2, h3, h4⟩ := secLoop_spec _ _ r' hml
          refine ⟨?_, ?_⟩
          · rw [h3, h1, h2]; simp
          · intro s hs
            exact (h4 s (by simpa [h2] using hs)).2
      · rw [if_neg hpre] at h
        cases hml : secLoop tail ⟨0, none, []⟩ with
        | none => rw [hml] at h; exact Option.noConfusion h
        | some r' =>
          rw [hml] at h
          have hr : r' = r := by simpa using h
          subst hr
          obtain ⟨added, h1, h2, h3, h4⟩ := secLoop_spec _ _ r' hml
          refine ⟨?_, ?_⟩
          · rw [h3, h1, h2]; simp
          · intro s hs
            exact (h4 s (by simpa [h2] using hs)).2
  · exfalso
    simp at h

/-- Evaluation of the whole pipeline on `\section{A} x` (used to witness the
hypotheses of several claim theorems). -/
theorem parse_eval_secAx :
    parse_and_count "\\section\x7bA\x7d x".data =
      some (Output.latex ⟨1, none, [⟨"A".data, 1, []⟩]⟩) := by
  have hlat : is_latex "\\section\x7bA\x7d x".data = true := by decide
  have hf : findHdr "section".data "\\section\x7bA\x7d x".data =
      some ([], "\\section\x7bA\x7d".data, "A".data, " x".data) := by decide
  have hf2 : findHdr "section".data " x".data = none := by decide
  have hsplit := (splitCap_of_some hf).trans (by rw [splitCap_of_none hf2])
  have hfsubA : findHdr "subsection".data "A".data = none := by decide
  have hsplitsub := splitCap_of_none hfsubA
  have hs1 : searchHdr "section".data "\\section\x7bA\x7d".data = some "A".data := by decide
  have hs2 : searchHdr "section".data " x".data = none := by decide
  simp only [parse_and_count, hlat, if_true, hsplit, clean_latex_nil, secLoop, hs1, hs2,
    hsplitsub, clean_latex_a, subLoop]
  decide

theorem c3_sum_law_witness :
    (⟨1, none, [⟨"A".data, 1, []⟩]⟩ : Results).total_words =
      (⟨1, none, [⟨"A".data, 1, []⟩]⟩ : Results).preamble.getD 0 +
        (((⟨1, none, [⟨"A".data, 1, []⟩]⟩ : Results).sections).map SecNode.word_count).sum :=
  (c3_sum_law "\\section\x7bA\x7d x".data _ parse_eval_secAx).1

theorem splitCap_ne_nil (kw l : List Char) : splitCap kw l ≠ [] := by
  cases hf : findHdr kw l with
  | none => rw [splitCap_of_none hf]; simp
  | some q =>
    obtain ⟨b, f, t, a⟩ := q
    rw [splitCap_of_some hf]
    simp

theorem getLast?_cons_of_ne_nil {α : Type} (a : α) {l : List α} (h : l ≠ []) :
    (a :: l).getLast? = l.getLast? := by
  cases l with
  | nil => exact absurd rfl h
  | cons b m => exact List.getLast?_cons_cons

/-- The element after the last header match — the final entry of the
`re.split` result — contains no further header match. -/
theorem splitCap_getLast_none (kw : List Char) :
    ∀ l x, (splitCap kw l).getLast? = some x → findHdr kw x = none := by
  intro l
  induction l using splitCap.induct kw with
  | case1 l hf =>
    intro x hx
    rw [splitCap_of_none hf] at hx
    simp at hx
    exact hx ▸ hf
  | case2 l b f t a hf ih =>
    intro x hx
    rw [splitCap_of_some hf] at hx
    have hne := splitCap_ne_nil kw a
    rw [getLast?_cons_of_ne_nil b (by simp),
        getLast?_cons_of_ne_nil f (by simp),
        getLast?_cons_of_ne_nil t hne] at hx
    exact ih x hx

theorem searchHdr_none_iff (kw l : List Char) :
    searchHdr kw l = none ↔ findHdr kw l = none := by
  unfold searchHdr
  cases findHdr kw l <;> simp

theorem subLoop_isSome (l : List (List Char)) (acc : SecNode)
    (hlast : ∀ x, l.getLast? = some x → searchHdr "subsection".data x = none) :
    (subLoop l acc).isSome = true := by
  induction l, acc using subLoop.induct with
  | case1 acc => simp [subLoop]
  | case2 s acc hs => simp [subLoop, hs]
  | case3 s acc t hs =>
    have := hlast s (by simp)
    rw [this] at hs
    exact Option.noConfusion hs
  | case4 s c rest acc hs ih =>
    simp only [subLoop, hs]
    refine ih ?_
    intro x hx
    have hne : rest ≠ [] := by intro e; subst e; simp at hx
    exact hlast x (by
      rw [getLast?_cons_of_ne_nil s (by simp), getLast?_cons_of_ne_nil c hne]; exact hx)
  | case5 s c rest acc t hs wc hpos ih =>
    simp only [subLoop, hs]
    rw [if_pos hpos]
    refine ih ?_
    intro x hx
    have hne : rest ≠ [] := by intro e; subst e; simp at hx
    exact hlast x (by
      rw [getLast?_cons_of_ne_nil s (by simp), getLast?_cons_of_ne_nil c hne]; exact hx)
  | case6 s c rest acc t hs wc hneg ih =>
    simp only [subLoop, hs]
    rw [if_neg hneg]
    refine ih ?_
    intro x hx
    have hne : rest ≠ [] := by intro e; subst e; simp at hx
    exact hlast x (by
      rw [getLast?_cons_of_ne_nil s (by simp), getLast?_cons_of_ne_nil c hne]; exact hx)

theorem secLoop_isSome (l : List (List Char)) (acc : Results)
    (hlast : ∀ x, l.getLast? = some x → searchHdr "section".data x = none) :
    (secLoop l acc).isSome = true := by
  induction l, acc using secLoop.induct with
  | case1 acc => simp [secLoop]
  | case2 s acc hs => simp [secLoop, hs]
  | case3 s acc t hs =>
    have := hlast s (by simp)
    rw [this] at hs
    exact Option.noConfusion hs
  | case4 s c rest acc hs ih =>
    simp only [secLoop, hs]
    refine ih ?_
    intro x hx
    have hne : rest ≠ [] := by intro e; subst e; simp at hx
    exact hlast x (by
      rw [getLast?_cons_of_ne_nil s (by simp), getLast?_cons_of_ne_nil c hne]; exact hx)
  | case5 s c rest acc t hs hsc =>
    exact absurd hsc (splitCap_ne_nil _ _)
  | case6 s c rest acc t hs intr subsTail hsc introWc hsub =>
    exfalso
    have hsubsome : (subLoop subsTail
        ⟨t, count_words (clean_latex intr), []⟩).isSome = true := by
      refine subLoop_isSome _ _ ?_
      intro x hx
      rw [searchHdr_none_iff]
      refine splitCap_getLast_none "subsection".data c x ?_
      rw [hsc]
      have hne : subsTail ≠ [] := by intro e; subst e; simp at hx
      rw [getLast?_cons_of_ne_nil intr hne]
      exact hx
    rw [hsub] at hsubsome
    simp at hsubsome
  | case7 s c rest acc t hs intr subsTail hsc introWc sec hsub ih =>
    simp only [secLoop, hs, hsc, hsub]
    refine ih ?_
    intro x hx
    have hne : rest ≠ [] := by intro e; subst e; simp at hx
    exact hlast x (by
      rw [getLast?_cons_of_ne_nil s (by simp), getLast?_cons_of_ne_nil c hne]; exact hx)

/-- C9: the core computation never raises: for every input — balanced or
not — `parse_and_count` (which applies `clean_latex` to every fragment)
returns a result; in particular every `sections[i+1]` / `subsections[j+1]`
access guarded by a successful header search is in range, and the loops
terminate. -/
theorem c9_no_fault (content : List Char) : (parse_and_count content).isSome = true := by
  unfold parse_and_count
  split
  · cases hsc : splitCap "section".data content with
    | nil => exact absurd hsc (splitCap_ne_nil _ _)
    | cons pre tail =>
      simp only []
      have hl : (secLoop tail (if 0 < count_words (clean_latex pre) then
          ⟨count_words (clean_latex pre), some (count_words (clean_latex pre)), []⟩
          else ⟨0, none, []⟩)).isSome = true := by
        refine secLoop_isSome _ _ ?_
        intro x hx
        rw [searchHdr_none_iff]
        refine splitCap_getLast_none "section".data content x ?_
        rw [hsc]
        have hne : tail ≠ [] := by intro e; subst e; simp at hx
        rw [getLast?_cons_of_ne_nil pre hne]
        exact hx
      obtain ⟨r', hr⟩ := Option.isSome_iff_exists.mp hl
      rw [hr]
      simp
  · simp

/-- Any candidate pair at an odd position of the subsection split whose
header search succeeds and whose cleaned count is positive contributes its
node to the section. -/
theorem subLoop_mem (l : List (List Char)) (acc : SecNode) :
    ∀ sec k s c t, subLoop l acc = some sec →
      l.get? (2 * k) = some s → l.get? (2 * k + 1) = some c →
      searchHdr "subsection".data s = some t →
      0 < count_words (clean_latex c) →
      SubNode.mk t (count_words (clean_latex c)) ∈ sec.subsections := by
  induction l, acc using subLoop.induct with
  | case1 acc =>
    intro sec k s c t h h1 h2 h3 h4
    simp at h1
  | case2 s' acc hs =>
    intro sec k s c t h h1 h2 h3 h4
    cases k with
    | zero => simp at h2
    | succ k' =>
      have : 2 * (k' + 1) = 2 * k' + 1 + 1 := by omega
      rw [this] at h1
      simp at h1
  | case3 s' acc t' hs =>
    intro sec k s c t h h1 h2 h3 h4
    simp only [subLoop, hs] at h
    exact Option.noConfusion h
  | case4 s' c' rest acc hs ih =>
    intro sec k s c t h h1 h2 h3 h4
    simp only [subLoop, hs] at h
    cases k with
    | zero =>
      simp at h1
      subst h1
      rw [h3] at hs
      exact Option.noConfusion hs
    | succ k' =>
      have e1 : 2 * (k' + 1) = 2 * k' + 1 + 1 := by omega
      rw [e1] at h1 h2
      simp only [List.get?_cons_succ] at h1 h2
      exact ih sec k' s c t h h1 h2 h3 h4
  | case5 s' c' rest acc t' hs wc hpos ih =>
    intro sec k s c t h h1 h2 h3 h4
    simp only [subLoop, hs] at h
    rw [if_pos hpos] at h
    cases k with
    | zero =>
      simp at h1 h2
      subst h1
      subst h2
      rw [h3] at hs
      cases hs
      obtain ⟨added, g1, g2, g3, g4⟩ := subLoop_spec _ _ sec h
      rw [g2]
      simp
    | succ k' =>
      have e1 : 2 * (k' + 1) = 2 * k' + 1 + 1 := by omega
      rw [e1] at h1 h2
      simp only [List.get?_cons_succ] at h1 h2
      exact ih sec k' s c t h h1 h2 h3 h4
  | case6 s' c' rest acc t' hs wc hneg ih =>
    intro sec k s c t h h1 h2 h3 h4
    simp only [subLoop, hs] at h
    rw [if_neg hneg] at h
    cases k with
    | zero =>
      simp at h1 h2
      subst h1
      subst h2
      exact absurd h4 hneg
    | succ k' =>
      have e1 : 2 * (k' + 1) = 2 * k' + 1 + 1 := by omega
      rw [e1] at h1 h2
      simp only [List.get?_cons_succ] at h1 h2
      exact ih sec k' s c t h h1 h2 h3 h4

/-- C8: in every produced result a subsection node always has a positive
word count (zero-count candidates are dropped); the preamble node is present
with the cleaned count of `sections[0]` exactly when that count is positive
and omitted when it is zero; and every candidate subsection with positive
cleaned count is included in its section's child list. -/
theorem c8_zero_filtering (content : List Char) (r : Results)
    (h : parse_and_count content = some (Output.latex r)) :
    (∀ s ∈ r.sections, ∀ sub ∈ s.subsections, 0 < sub.word_count) ∧
    ((0 < count_words (clean_latex ((splitCap "section".data content).headD [])) →
        r.preamble = some (count_words (clean_latex ((splitCap "section".data content).headD [])))) ∧
      (count_words (clean_latex ((splitCap "section".data content).headD [])) = 0 →
        r.preamble = none)) ∧
    (∀ (l : List (List Char)) (acc sec : SecNode) (k : Nat) (s c t : List Char),
      subLoop l acc = some sec →
      l.get? (2 * k) = some s → l.get? (2 * k + 1) = some c →
      searchHdr "subsection".data s = some t →
      0 < count_words (clean_latex c) →
      SubNode.mk t (count_words (clean_latex c)) ∈ sec.subsections) := by
  refine ⟨?_, ?_, ?_⟩
  · unfold parse_and_count at h
    split at h
    · cases hsc : splitCap "section".data content with
      | nil => rw [hsc] at h; exact Option.noConfusion h
      | cons pre tail =>
        rw [hsc] at h
        simp only [] at h
        intro s hsmem sub hsubmem
        by_cases hpre : 0 < count_words (clean_latex pre)
        · rw [if_pos hpre] at h
          cases hml : secLoop tail ⟨count_words (clean_latex pre),
              some (count_words (clean_latex pre)), []⟩ with
          | none => rw [hml] at h; exact Option.noConfusion h
          | some r' =>
            rw [hml] at h
            have hr : r' = r := by simpa using h
            subst hr
            obtain ⟨added, h1, h2, h3, h4⟩ := secLoop_spec _ _ r' hml
            exact (h4 s (by simpa [h2] using hsmem)).1 sub hsubmem
        · rw [if_neg hpre] at h
          cases hml : secLoop tail ⟨0, none, []⟩ with
          | none => rw [hml] at h; exact Option.noConfusion h
          | some r' =>
            rw [hml] at h
            have hr : r' = r := by simpa using h
            subst hr
            obtain ⟨added, h1, h2, h3, h4⟩ := secLoop_spec _ _ r' hml
            exact (h4 s (by simpa [h2] using hsmem)).1 sub hsubmem
    · exfalso; simp at h
  · unfold parse_and_count at h
    split at h
    · cases hsc : splitCap "section".data content with
      | nil => rw [hsc] at h; exact Option.noConfusion h
      | cons pre tail =>
        rw [hsc] at h
        simp only [] at h
        simp only [hsc, List.headD_cons]
        by_cases hpre : 0 < count_words (clean_latex pre)
        · rw [if_pos hpre] at h
          cases hml : secLoop tail ⟨count_words (clean_latex pre),
              some (count_words (clean_latex pre)), []⟩ with
          | none => rw [hml] at h; exact Option.noConfusion h
          | some r' =>
            rw [hml] at h
            have hr : r' = r := by simpa using h
            subst hr
            obtain ⟨added, h1, h2, h3, h4⟩ := secLoop_spec _ _ r' hml
            constructor
            · intro _; rw [h1]
            · intro hz; omega
        · rw [if_neg hpre] at h
          cases hml : secLoop tail ⟨0, none, []⟩ with
          | none => rw [hml] at h; exact Option.noConfusion h
          | some r' =>
            rw [hml] at h
            have hr : r' = r := by simpa using h
            subst hr
            obtain ⟨added, h1, h2, h3, h4⟩ := secLoop_spec _ _ r' hml
            constructor
            · intro hp; exact absurd hp hpre
            · intro _; rw [h1]
    · exfalso; simp at h
  · intro l acc sec k s c t hh h1 h2 h3 h4
    exact subLoop_mem l acc sec k s c t hh h1 h2 h3 h4

theorem c8_zero_filtering_witness :
    (⟨1, none, [⟨"A".data, 1, []⟩]⟩ : Results).preamble = none := by
  have hf : findHdr "section".data "\\section\x7bA\x7d x".data =
      some ([], "\\section\x7bA\x7d".data, "A".data, " x".data) := by decide
  have hf2 : findHdr "section".data " x".data = none := by decide
  have hsplit := (splitCap_of_some hf).trans (by rw [splitCap_of_none hf2])
  refine (c8_zero_filtering "\\section\x7bA\x7d x".data _ parse_eval_secAx).2.1.2 ?_
  rw [hsplit]
  simp [clean_latex_nil, count_words, tokAux]

theorem tok_true_le_false (l : List Char) : tokAux true l ≤ tokAux false l := by
  cases l with
  | nil => simp [tokAux]
  | cons c r =>
    by_cases hc : pyIsSpace c
    · simp [tokAux, hc]
    · have e1 : tokAux true (c :: r) = tokAux true r := by simp [tokAux, hc]
      have e2 : tokAux false (c :: r) = 1 + tokAux true r := by simp [tokAux, hc]
      omega

theorem tok_false_le_true_succ (l : List Char) : tokAux false l ≤ tokAux true l + 1 := by
  cases l with
  | nil => simp [tokAux]
  | cons c r =>
    by_cases hc : pyIsSpace c
    · simp [tokAux, hc]
    · have e1 : tokAux true (c :: r) = tokAux true r := by simp [tokAux, hc]
      have e2 : tokAux false (c :: r) = 1 + tokAux true r := by simp [tokAux, hc]
      omega

theorem tok_le_cons (b : Bool) (a : Char) (x : List Char) :
    tokAux b x ≤ tokAux b (a :: x) := by
  by_cases ha : pyIsSpace a
  · have e : tokAux b (a :: x) = tokAux false x := by simp [tokAux, ha]
    rw [e]
    cases b
    · exact Nat.le_refl _
    · exact tok_true_le_false x
  · cases b
    · have e : tokAux false (a :: x) = 1 + tokAux true x := by simp [tokAux, ha]
      have h1 := tok_false_le_true_succ x
      omega
    · have e : tokAux true (a :: x) = tokAux true x := by simp [tokAux, ha]
      omega

/-- Removing characters (in any pattern) never increases the token count. -/
theorem tok_sublist {y x : List Char} (h : y.Sublist x) :
    ∀ b, tokAux b y ≤ tokAux b x := by
  induction h with
  | slnil => intro b; exact Nat.le_refl _
  | cons a h ih =>
    intro b
    exact le_trans (ih b) (tok_le_cons b a _)
  | cons₂ a h ih =>
    intro b
    by_cases ha : pyIsSpace a
    · have e1 : ∀ z, tokAux b (a :: z) = tokAux false z := by intro z; simp [tokAux, ha]
      rw [e1, e1]
      exact ih false
    · have e1 : ∀ z, tokAux b (a :: z) = (if b then 0 else 1) + tokAux true z := by
        intro z; simp [tokAux, ha]
      rw [e1, e1]
      exact Nat.add_le_add_left (ih true) _

theorem count_words_sublist {y x : List Char} (h : y.Sublist x) :
    count_words y ≤ count_words x := tok_sublist h false

theorem dropThroughFirst_sublist {pat : List Char} :
    ∀ {l r : List Char}, dropThroughFirst pat l = some r → r.Sublist l := by
  intro l
  induction l with
  | nil => intro r h; simp [dropThroughFirst] at h
  | cons c rest ih =>
    intro r h
    simp only [dropThroughFirst] at h
    split at h
    · cases h
      exact List.drop_sublist _ _
    · exact (ih h).trans (List.sublist_cons_self c rest)

theorem removeComments_sublist (l : List Char) : (removeComments l).Sublist l := by
  induction l using removeComments.induct with
  | case1 => simp [removeComments]
  | case2 r ih =>
    have e : removeComments ('%' :: r) = removeComments (r.dropWhile (· ≠ '\n')) := by
      simp [removeComments]
    rw [e]
    exact (ih.trans (List.dropWhile_sublist _)).trans (List.sublist_cons_self '%' r)
  | case3 c r hc ih =>
    have e : removeComments (c :: r) = c :: removeComments r := by
      simp [removeComments, hc]
    rw [e]
    exact ih.cons₂ c

theorem subDelim_sublist (o : Char) (os cls : List Char) (l : List Char) :
    (subDelim o os cls l).Sublist l := by
  induction l using subDelim.induct o os cls with
  | case1 => simp [subDelim]
  | case2 c r hpre rem hdrop ih =>
    have e : subDelim o os cls (c :: r) = subDelim o os cls rem := by
      simp only [subDelim, hpre, if_true]
      split
      · next rem2 h2 => rw [hdrop] at h2; cases h2; rfl
      · next h2 => rw [hdrop] at h2; cases h2
    rw [e]
    exact ((ih.trans (dropThroughFirst_sublist hdrop)).trans
      (List.drop_sublist _ _)).trans (List.sublist_cons_self c r)
  | case3 c r hpre hdrop ih =>
    have e : subDelim o os cls (c :: r) = c :: subDelim o os cls r := by
      simp only [subDelim, hpre, if_true]
      split
      · next rem2 h2 => rw [hdrop] at h2; cases h2
      · rfl
    rw [e]
    exact ih.cons₂ c
  | case4 c r hpre ih =>
    have e : subDelim o os cls (c :: r) = c :: subDelim o os cls r := by
      simp [subDelim, hpre]
    rw [e]
    exact ih.cons₂ c

theorem subPair_sublist (opn cls l : List Char) : (subPair opn cls l).Sublist l := by
  cases opn with
  | nil => simp [subPair]
  | cons o os => exact subDelim_sublist o os cls l

theorem removeEnvsFold_sublist (envs : List (List Char)) :
    ∀ l : List Char,
      (envs.foldl
        (fun acc env =>
          subPair (beginPat (env ++ ['*'])) (endPat (env ++ ['*']))
            (subPair (beginPat env) (endPat env) acc)) l).Sublist l := by
  induction envs with
  | nil => intro l; simp
  | cons e es ih =>
    intro l
    simp only [List.foldl_cons]
    exact (ih _).trans ((subPair_sublist _ _ _).trans (subPair_sublist _ _ _))

theorem removeEnvs_sublist (l : List Char) : (removeEnvs l).Sublist l :=
  removeEnvsFold_sublist envsToRemove l

theorem dropToDollar_sublist :
    ∀ {l r : List Char}, dropToDollar l = some r → r.Sublist l := by
  intro l
  induction l with
  | nil => intro r h; simp [dropToDollar] at h
  | cons c rest ih =>
    intro r h
    simp only [dropToDollar] at h
    split at h
    · cases h; exact List.sublist_cons_self _ _
    · split at h
      · cases h
      · exact (ih h).trans (List.sublist_cons_self c rest)

theorem subInline_sublist (l : List Char) : (subInline l).Sublist l := by
  induction l using subInline.induct with
  | case1 => simp [subInline]
  | case2 r rem hdrop ih =>
    have e : subInline ('$' :: r) = subInline rem := by
      simp only [subInline]
      split
      · split
        · next rem2 h2 => rw [hdrop] at h2; cases h2; rfl
        · next h2 => rw [hdrop] at h2; cases h2
      · next hcond => exact absurd trivial hcond
    rw [e]
    exact (ih.trans (dropToDollar_sublist hdrop)).trans (List.sublist_cons_self '$' r)
  | case3 r hdrop ih =>
    have e : subInline ('$' :: r) = '$' :: subInline r := by
      simp only [subInline]
      split
      · split
        · next rem2 h2 => rw [hdrop] at h2; cases h2
        · next _ => rfl
      · next hcond => exact absurd trivial hcond
    rw [e]
    exact ih.cons₂ '$'
  | case4 c r hc ih =>
    have e : subInline (c :: r) = c :: subInline r := by
      simp [subInline, hc]
    rw [e]
    exact ih.cons₂ c

theorem scanClassToBracket_sublist :
    ∀ {l r : List Char}, scanClassToBracket l = some r → r.Sublist l := by
  intro l
  induction l with
  | nil => intro r h; simp [scanClassToBracket] at h
  | cons c rest ih =>
    intro r h
    simp only [scanClassToBracket] at h
    split at h
    · cases h; exact List.sublist_cons_self _ _
    · split at h
      · exact (ih h).trans (List.sublist_cons_self c rest)
      · cases h

theorem dropBracketOpt_sublist (l : List Char) : (dropBracketOpt l).Sublist l := by
  cases l with
  | nil => simp [dropBracketOpt]
  | cons c r =>
    by_cases hc : c = '\\'
    · cases hscan : scanClassToBracket r with
      | none => simp [dropBracketOpt, hc, hscan]
      | some rem =>
        have e : dropBracketOpt (c :: r) = rem := by simp [dropBracketOpt, hc, hscan]
        rw [e]
        exact (scanClassToBracket_sublist hscan).trans (List.sublist_cons_self c r)
    · simp [dropBracketOpt, hc]

theorem dropToBrace_sublist :
    ∀ {l r : List Char}, dropToBrace l = some r → r.Sublist l := by
  intro l
  induction l with
  | nil => intro r h; simp [dropToBrace] at h
  | cons c rest ih =>
    intro r h
    simp only [dropToBrace] at h
    split at h
    · cases h; exact List.sublist_cons_self _ _
    · split at h
      · cases h
      · exact (ih h).trans (List.sublist_cons_self c rest)

theorem dropBraceOpt_sublist (l : List Char) : (dropBraceOpt l).Sublist l := by
  cases l with
  | nil => simp [dropBraceOpt]
  | cons c r =>
    by_cases hc : c = '\x7b'
    · cases hscan : dropToBrace r with
      | none => simp [dropBraceOpt, hc, hscan]
      | some rem =>
        have e : dropBraceOpt (c :: r) = rem := by simp [dropBraceOpt, hc, hscan]
        rw [e]
        exact (dropToBrace_sublist hscan).trans (List.sublist_cons_self c r)
    · simp [dropBraceOpt, hc]

theorem subCmdArgs_sublist (l : List Char) : (subCmdArgs l).Sublist l := by
  induction l using subCmdArgs.induct with
  | case1 => simp [subCmdArgs]
  | case2 =>
    have e : subCmdArgs ['\\'] = ['\\'] := by rw [subCmdArgs.eq_def]; simp
    rw [e]
  | case3 d t hd ih =>
    have e : subCmdArgs ('\\' :: d :: t) =
        subCmdArgs (dropBraceOpt (dropBracketOpt (t.dropWhile Char.isAlpha))) := by
      rw [subCmdArgs.eq_def]; simp [hd]
    rw [e]
    refine (((ih.trans (dropBraceOpt_sublist _)).trans (dropBracketOpt_sublist _)).trans
      (List.dropWhile_sublist _)).trans ?_
    exact (List.sublist_cons_self d t).trans (List.sublist_cons_self '\\' (d :: t))
  | case4 d t hd ih =>
    have e : subCmdArgs ('\\' :: d :: t) = '\\' :: subCmdArgs (d :: t) := by
      rw [subCmdArgs.eq_def]; simp [hd]
    rw [e]
    exact ih.cons₂ '\\'
  | case5 c r hc ih =>
    have e : subCmdArgs (c :: r) = c :: subCmdArgs r := by
      rw [subCmdArgs.eq_def]; simp [hc]
    rw [e]
    exact ih.cons₂ c

theorem subCmdBare_sublist (l : List Char) : (subCmdBare l).Sublist l := by
  induction l using subCmdBare.induct with
  | case1 => simp [subCmdBare]
  | case2 =>
    have e : subCmdBare ['\\'] = ['\\'] := by rw [subCmdBare.eq_def]; simp
    rw [e]
  | case3 d t hd ih =>
    have e : subCmdBare ('\\' :: d :: t) = subCmdBare (t.dropWhile Char.isAlpha) := by
      rw [subCmdBare.eq_def]; simp [hd]
    rw [e]
    refine (ih.trans (List.dropWhile_sublist _)).trans ?_
    exact (List.sublist_cons_self d t).trans (List.sublist_cons_self '\\' (d :: t))
  | case4 d t hd ih =>
    have e : subCmdBare ('\\' :: d :: t) = '\\' :: subCmdBare (d :: t) := by
      rw [subCmdBare.eq_def]; simp [hd]
    rw [e]
    exact ih.cons₂ '\\'
  | case5 c r hc ih =>
    have e : subCmdBare (c :: r) = c :: subCmdBare r := by
      rw [subCmdBare.eq_def]; simp [hc]
    rw [e]
    exact ih.cons₂ c

theorem removeBraces_sublist (l : List Char) : (removeBraces l).Sublist l :=
  List.filter_sublist l

theorem pySplitlines_nil : pySplitlines [] = [] := by
  rw [pySplitlines.eq_def]

theorem pySplitlines_crlf (r : List Char) :
    pySplitlines ('\r' :: '\n' :: r) = [] :: pySplitlines r := by
  rw [pySplitlines.eq_def]
  simp

theorem pySplitlines_cons_bdy (c : Char) (r : List Char)
    (h : ∀ r2 : List Char, c = '\r' → r = '\n' :: r2 → False)
    (hb : isLineBoundary c = true) :
    pySplitlines (c :: r) = [] :: pySplitlines r := by
  rw [pySplitlines.eq_def]
  split
  · next x heq => simp at heq
  · next x r2 heq =>
    injection heq with h1 h2
    exact (h r2 h1 h2).elim
  · next x c2 r2 hcond heq =>
    injection heq with h1 h2
    subst h1
    subst h2
    rw [if_pos hb]

theorem pySplitlines_cons_not_bdy (c : Char) (r : List Char)
    (hb : isLineBoundary c = false) :
    pySplitlines (c :: r) =
      (match pySplitlines r with
       | [] => [[c]]
       | h :: t => (c :: h) :: t) := by
  rw [pySplitlines.eq_def]
  split
  · next x heq => simp at heq
  · next x r2 heq =>
    injection heq with h1 h2
    subst h1
    exact absurd hb (by decide)
  · next x c2 r2 hcond heq =>
    injection heq with h1 h2
    subst h1
    subst h2
    rw [if_neg (by simp [hb])]

theorem pySplitlines_ne_nil (x : List Char) (hx : x ≠ []) : pySplitlines x ≠ [] := by
  cases x with
  | nil => exact absurd rfl hx
  | cons c r =>
    by_cases hcr : ∃ r2 : List Char, c = '\r' ∧ r = '\n' :: r2
    · obtain ⟨r2, rfl, rfl⟩ := hcr
      rw [pySplitlines_crlf]
      simp
    · have h : ∀ r2 : List Char, c = '\r' → r = '\n' :: r2 → False := by
        intro r2 h1 h2
        exact hcr ⟨r2, h1, h2⟩
      by_cases hb : isLineBoundary c
      · rw [pySplitlines_cons_bdy c r h hb]
        simp
      · rw [pySplitlines_cons_not_bdy c r (by simpa using hb)]
        cases pySplitlines r with
        | nil => simp
        | cons a t => simp

theorem boundary_is_space (c : Char) (h : isLineBoundary c = true) : pyIsSpace c = true := by
  simp only [isLineBoundary, Bool.or_eq_true, decide_eq_true_eq] at h
  rcases h with ((((((((h | h) | h) | h) | h) | h) | h) | h) | h) | h <;> subst h <;> decide

/-- Token counts are computed line by line: the boundaries removed by
`pySplitlines` are all whitespace. -/
theorem tok_splitlines (x : List Char) : ∀ b,
    tokAux b x =
      (match pySplitlines x with
       | [] => 0
       | h :: t => tokAux b h + (t.map count_words).sum) := by
  induction x using pySplitlines.induct with
  | case1 => intro b; rw [pySplitlines_nil]; simp [tokAux]
  | case2 r ih =>
    intro b
    rw [pySplitlines_crlf]
    have e1 : tokAux b ('\r' :: '\n' :: r) = tokAux false r := by
      simp [tokAux, show pyIsSpace '\r' = true from by decide,
        show pyIsSpace '\n' = true from by decide]
    have e2 : tokAux false r = ((pySplitlines r).map count_words).sum := by
      have h1 := ih false
      cases hps : pySplitlines r with
      | nil =>
        rw [hps] at h1
        simpa using h1
      | cons h t =>
        rw [hps] at h1
        simpa [count_words] using h1
    rw [e1, e2]
    simp [tokAux, count_words]
  | case3 c r hexcl hb ih =>
    intro b
    rw [pySplitlines_cons_bdy c r (by intro r2 h1 h2; exact hexcl r2 h1 h2) hb]
    have e1 : tokAux b (c :: r) = tokAux false r := by
      simp [tokAux, boundary_is_space c hb]
    have e2 : tokAux false r = ((pySplitlines r).map count_words).sum := by
      have h1 := ih false
      cases hps : pySplitlines r with
      | nil =>
        rw [hps] at h1
        simpa using h1
      | cons h t =>
        rw [hps] at h1
        simpa [count_words] using h1
    rw [e1, e2]
    simp [tokAux, count_words]
  | case4 c r hexcl hb hps ih =>
    intro b
    have hr : r = [] := by
      by_contra hne
      exact pySplitlines_ne_nil r hne hps
    subst hr
    rw [pySplitlines_cons_not_bdy c [] (by simpa using hb), pySplitlines_nil]
    simp
  | case5 c r hexcl hb h t hps ih =>
    intro b
    rw [pySplitlines_cons_not_bdy c r (by simpa using hb), hps]
    by_cases hc : pyIsSpace c
    · have e1 : tokAux b (c :: r) = tokAux false r := by simp [tokAux, hc]
      have e2 : tokAux b (c :: h) = tokAux false h := by simp [tokAux, hc]
      have h1 := ih false
      rw [hps] at h1
      rw [e1, h1]
      simp [e2]
    · have e1 : tokAux b (c :: r) = (if b then 0 else 1) + tokAux true r := by
        simp [tokAux, hc]
      have e2 : tokAux b (c :: h) = (if b then 0 else 1) + tokAux true h := by
        simp [tokAux, hc]
      have h1 := ih true
      rw [hps] at h1
      rw [e1, h1]
      show (if b = true then 0 else 1) + (tokAux true h + (t.map count_words).sum) =
        tokAux b (c :: h) + (t.map count_words).sum
      rw [e2]
      omega

theorem count_words_splitlines (x : List Char) :
    count_words x = ((pySplitlines x).map count_words).sum := by
  have h := tok_splitlines x false
  cases hps : pySplitlines x with
  | nil => rw [hps] at h; simpa [count_words] using h
  | cons a t => rw [hps] at h; simpa [count_words] using h

/-- The scanning flag after processing `x`. -/
def flagAfter (b : Bool) (x : List Char) : Bool :=
  x.foldl (fun _ c => !pyIsSpace c) b

theorem tok_append (x : List Char) :
    ∀ (b : Bool) (y : List Char),
      tokAux b (x ++ y) = tokAux b x + tokAux (flagAfter b x) y := by
  induction x with
  | nil => intro b y; simp [tokAux, flagAfter]
  | cons c r ih =>
    intro b y
    have hf : flagAfter b (c :: r) = flagAfter (!pyIsSpace c) r := rfl
    by_cases hc : pyIsSpace c
    · have e1 : tokAux b ((c :: r) ++ y) = tokAux false (r ++ y) := by
        simp [tokAux, hc]
      have e2 : tokAux b (c :: r) = tokAux false r := by simp [tokAux, hc]
      rw [e1, e2, hf, ih false y]
      simp [hc]
    · have e1 : tokAux b ((c :: r) ++ y) = (if b then 0 else 1) + tokAux true (r ++ y) := by
        simp [tokAux, hc]
      have e2 : tokAux b (c :: r) = (if b then 0 else 1) + tokAux true r := by
        simp [tokAux, hc]
      rw [e1, e2, hf, ih true y]
      have : (!pyIsSpace c) = true := by simp [hc]
      rw [this]
      omega

theorem tok_allSpace (s : List Char) (h : ∀ c ∈ s, pyIsSpace c = true) :
    ∀ b, tokAux b s = 0 := by
  induction s with
  | nil => intro b; simp [tokAux]
  | cons c r ih =>
    intro b
    have hc : pyIsSpace c = true := h c (List.mem_cons_self c r)
    have e : tokAux b (c :: r) = tokAux false r := by simp [tokAux, hc]
    rw [e]
    exact ih (fun d hd => h d (List.mem_cons_of_mem c hd)) false

theorem tok_dropWhile_space (a : List Char) :
    tokAux false (a.dropWhile pyIsSpace) = tokAux false a := by
  induction a with
  | nil => simp
  | cons c r ih =>
    by_cases hc : pyIsSpace c
    · have e1 : (c :: r).dropWhile pyIsSpace = r.dropWhile pyIsSpace := by
        simp [List.dropWhile, hc]
      have e2 : tokAux false (c :: r) = tokAux false r := by simp [tokAux, hc]
      rw [e1, e2, ih]
    · have e1 : (c :: r).dropWhile pyIsSpace = c :: r := by
        simp [List.dropWhile, hc]
      rw [e1]

theorem rdropWhile_append_rtakeWhile (p : Char → Bool) (l : List Char) :
    l.rdropWhile p ++ l.rtakeWhile p = l := by
  unfold List.rdropWhile List.rtakeWhile
  rw [← List.reverse_append, List.takeWhile_append_dropWhile, List.reverse_reverse]

theorem count_words_pyStrip (a : List Char) : count_words (pyStrip a) = count_words a := by
  unfold pyStrip count_words
  rw [← tok_dropWhile_space a]
  have hsplit := rdropWhile_append_rtakeWhile pyIsSpace (a.dropWhile pyIsSpace)
  conv_rhs => rw [← hsplit]
  rw [tok_append]
  have h0 : tokAux (flagAfter false ((a.dropWhile pyIsSpace).rdropWhile pyIsSpace))
      ((a.dropWhile pyIsSpace).rtakeWhile pyIsSpace) = 0 := by
    apply tok_allSpace
    intro c hc
    exact List.mem_rtakeWhile_imp hc
  rw [h0]
  omega

theorem intercalate_cons_cons (a b : List Char) (t : List (List Char)) :
    List.intercalate ['\n'] (a :: b :: t) = a ++ '\n' :: List.intercalate ['\n'] (b :: t) := by
  simp [List.intercalate, List.intersperse]

theorem tok_intercalate :
    ∀ ls : List (List Char),
      tokAux false (List.intercalate ['\n'] ls) = (ls.map count_words).sum := by
  intro ls
  induction ls with
  | nil => simp [List.intercalate, tokAux]
  | cons a t ih =>
    cases t with
    | nil => simp [List.intercalate, count_words]
    | cons b t2 =>
      rw [intercalate_cons_cons, tok_append]
      have e : ∀ fl, tokAux fl ('\n' :: List.intercalate ['\n'] (b :: t2)) =
          tokAux false (List.intercalate ['\n'] (b :: t2)) := by
        intro fl
        simp [tokAux, show pyIsSpace '\n' = true from by decide]
      rw [e, ih]
      simp [count_words]

theorem stripLines_count (x : List Char) : count_words (stripLines x) = count_words x := by
  unfold stripLines
  have h1 : count_words (List.intercalate ['\n'] ((pySplitlines x).map pyStrip)) =
      (((pySplitlines x).map pyStrip).map count_words).sum := tok_intercalate _
  rw [h1, List.map_map]
  have h2 : (pySplitlines x).map (count_words ∘ pyStrip) = (pySplitlines x).map count_words := by
    apply List.map_congr_left
    intro a _
    exact count_words_pyStrip a
  rw [h2, ← count_words_splitlines]

/-- C10: cleaning never increases the word count: every pass of
`clean_latex` either deletes characters outright (which can merge or delete
whitespace-delimited tokens but never split one) or normalises whitespace
line by line, so the token count of the cleaned text is at most that of the
raw text. -/
theorem c10_cleaning_never_increases (l : List Char) :
    count_words (clean_latex l) ≤ count_words l := by
  unfold clean_latex
  simp only []
  rw [stripLines_count]
  refine count_words_sublist ?_
  refine ((removeBraces_sublist _).trans ?_)
  refine ((subCmdBare_sublist _).trans ?_)
  refine ((subCmdArgs_sublist _).trans ?_)
  refine ((subInline_sublist _).trans ?_)
  refine ((subPair_sublist _ _ _).trans ?_)
  refine ((subPair_sublist _ _ _).trans ?_)
  refine ((removeEnvs_sublist _).trans ?_)
  exact removeComments_sublist l

/-- At most one `$` between consecutive newlines: the invariant that makes
both math-removal passes a no-op. -/
def dollarOK (l : List Char) : Prop :=
  ∀ ln ∈ linesNl l, ln.count '$' ≤ 1

theorem linesNl_ne_nil (x : List Char) : linesNl x ≠ [] := by
  cases x with
  | nil => simp [linesNl]
  | cons c r =>
    rw [linesNl.eq_def]
    simp only []
    split
    · simp
    · split <;> simp

theorem linesNl_nl (r : List Char) : linesNl ('\n' :: r) = [] :: linesNl r := by
  rw [linesNl.eq_def]
  simp

theorem linesNl_cons_ne (c : Char) (r : List Char) (hc : c ≠ '\n') :
    linesNl (c :: r) = (c :: (linesNl r).headD []) :: (linesNl r).tail := by
  rw [linesNl.eq_def]
  simp only [if_neg hc]
  cases hr : linesNl r with
  | nil => exact absurd hr (linesNl_ne_nil r)
  | cons h t => simp

theorem linesNl_single (y : List Char) (hy : '\n' ∉ y) : linesNl y = [y] := by
  induction y with
  | nil => simp [linesNl]
  | cons c r ih =>
    have hc : c ≠ '\n' := fun h => hy (h ▸ List.mem_cons_self c r)
    rw [linesNl_cons_ne c r hc, ih (fun h => hy (List.mem_cons_of_mem c h))]
    simp

theorem linesNl_append (y z : List Char) (hy : '\n' ∉ y) :
    linesNl (y ++ z) = (y ++ (linesNl z).headD []) :: (linesNl z).tail := by
  induction y with
  | nil =>
    simp only [List.nil_append]
    cases hz : linesNl z with
    | nil => exact absurd hz (linesNl_ne_nil z)
    | cons h t => simp
  | cons c y' ih =>
    have hc : c ≠ '\n' := fun h => hy (h ▸ List.mem_cons_self c y')
    rw [List.cons_append, linesNl_cons_ne c (y' ++ z) hc,
      ih (fun h => hy (List.mem_cons_of_mem c h))]
    simp

theorem dollarOK_tail {c : Char} {x : List Char} (h : dollarOK (c :: x)) : dollarOK x := by
  by_cases hc : c = '\n'
  · subst hc
    intro ln hln
    exact h ln (by rw [linesNl_nl]; exact List.mem_cons_of_mem _ hln)
  · intro ln hln
    have hx := h ((c :: (linesNl x).headD [])) (by rw [linesNl_cons_ne c x hc]; simp)
    cases hlx : linesNl x with
    | nil => exact absurd hlx (linesNl_ne_nil x)
    | cons h0 t0 =>
      rw [hlx] at hln
      rcases List.mem_cons.mp hln with rfl | hmem
      · rw [hlx] at hx
        simp only [List.headD_cons] at hx
        calc ln.count '$' ≤ (c :: ln).count '$' := by
              rw [List.count_cons]
              omega
          _ ≤ 1 := hx
      · refine h ln ?_
        rw [linesNl_cons_ne c x hc, hlx]
        simp only [List.headD_cons, List.tail_cons]
        exact List.mem_cons_of_mem _ hmem

theorem dollarOK_first_line {c : Char} {x : List Char} (hc : c ≠ '\n')
    (h : dollarOK (c :: x)) : (c :: (linesNl x).headD []).count '$' ≤ 1 :=
  h _ (by rw [linesNl_cons_ne c x hc]; simp)

theorem dropToDollar_none_of_no_dollar (x : List Char) (h : '$' ∉ x) :
    dropToDollar x = none := by
  induction x with
  | nil => simp [dropToDollar]
  | cons c r ih =>
    have hc : c ≠ '$' := fun e => h (e ▸ List.mem_cons_self c r)
    simp only [dropToDollar, if_neg hc]
    split
    · rfl
    · exact ih (fun e => h (List.mem_cons_of_mem c e))

theorem dropToDollar_no_dollar (x : List Char) (hnl : '\n' ∉ x)
    (h : dropToDollar x = none) : '$' ∉ x := by
  induction x with
  | nil => simp
  | cons c r ih =>
    simp only [dropToDollar] at h
    split at h
    · exact Option.noConfusion h
    · split at h
      · next hc hn => exact absurd hn (fun e => hnl (e ▸ List.mem_cons_self c r))
      · next hc hn =>
        intro hmem
        rcases List.mem_cons.mp hmem with rfl | hmem2
        · exact hc rfl
        · exact ih (fun e => hnl (List.mem_cons_of_mem c e)) h hmem2

theorem subInline_no_dollar_id (x : List Char) (h : '$' ∉ x) : subInline x = x := by
  induction x with
  | nil => simp [subInline]
  | cons c r ih =>
    have hc : c ≠ '$' := fun e => h (e ▸ List.mem_cons_self c r)
    have e : subInline (c :: r) = c :: subInline r := by
      rw [subInline.eq_def]
      simp [hc]
    rw [e, ih (fun e2 => h (List.mem_cons_of_mem c e2))]

theorem subInline_count_le (x : List Char) (hnl : '\n' ∉ x) :
    (subInline x).count '$' ≤ 1 := by
  induction x using subInline.induct with
  | case1 => simp [subInline]
  | case2 r rem hdrop ih =>
    have e : subInline ('$' :: r) = subInline rem := by
      simp only [subInline]
      split
      · split
        · next rem2 h2 => rw [hdrop] at h2; cases h2; rfl
        · next h2 => rw [hdrop] at h2; cases h2
      · next hcond => exact absurd trivial hcond
    rw [e]
    have hr : '\n' ∉ r := fun hm => hnl (List.mem_cons_of_mem '$' hm)
    exact ih (fun hm => hr ((dropToDollar_sublist hdrop).subset hm))
  | case3 r hdrop ih =>
    have hr : '\n' ∉ r := fun hm => hnl (List.mem_cons_of_mem '$' hm)
    have hnd : '$' ∉ r := dropToDollar_no_dollar r hr hdrop
    have e : subInline ('$' :: r) = '$' :: subInline r := by
      simp only [subInline]
      split
      · split
        · next rem2 h2 => rw [hdrop] at h2; cases h2
        · next _ => rfl
      · next hcond => exact absurd trivial hcond
    rw [e, subInline_no_dollar_id r hnd]
    simp [List.count_cons, List.count_eq_zero.mpr hnd]
  | case4 c r hc ih =>
    have e : subInline (c :: r) = c :: subInline r := by
      rw [subInline.eq_def]
      simp [hc]
    rw [e, List.count_cons]
    have hr : '\n' ∉ r := fun hm => hnl (List.mem_cons_of_mem c hm)
    have h1 := ih hr
    have hne : ¬(('$' : Char) = c) := fun e2 => hc e2.symm
    simpa [hc, hne] using h1

theorem subInline_id_of_line (x : List Char) (hnl : '\n' ∉ x)
    (hcnt : x.count '$' ≤ 1) : subInline x = x := by
  induction x using subInline.induct with
  | case1 => simp [subInline]
  | case2 r rem hdrop ih =>
    exfalso
    have hr : '\n' ∉ r := fun hm => hnl (List.mem_cons_of_mem '$' hm)
    have hcr : r.count '$' = 0 := by
      rw [List.count_cons] at hcnt
      simp at hcnt
      omega
    have : '$' ∉ r := List.count_eq_zero.mp hcr
    rw [dropToDollar_none_of_no_dollar r this] at hdrop
    exact Option.noConfusion hdrop
  | case3 r hdrop ih =>
    have hr : '\n' ∉ r := fun hm => hnl (List.mem_cons_of_mem '$' hm)
    have hnd : '$' ∉ r := dropToDollar_no_dollar r hr hdrop
    have e : subInline ('$' :: r) = '$' :: subInline r := by
      simp only [subInline]
      split
      · split
        · next rem2 h2 => rw [hdrop] at h2; cases h2
        · next _ => rfl
      · next hcond => exact absurd trivial hcond
    rw [e, subInline_no_dollar_id r hnd]
  | case4 c r hc ih =>
    have e : subInline (c :: r) = c :: subInline r := by
      rw [subInline.eq_def]
      simp [hc]
    rw [e]
    have hr : '\n' ∉ r := fun hm => hnl (List.mem_cons_of_mem c hm)
    have hcr : r.count '$' ≤ 1 := by
      rw [List.count_cons] at hcnt
      omega
    rw [ih hr hcr]

theorem dropToDollar_append_nl (a : List Char) (hnl : '\n' ∉ a) (b : List Char) :
    dropToDollar (a ++ '\n' :: b) = (dropToDollar a).map (fun s => s ++ '\n' :: b) := by
  induction a with
  | nil => simp [dropToDollar]
  | cons c a' ih =>
    have hc : c ≠ '\n' := fun e => hnl (e ▸ List.mem_cons_self c a')
    by_cases hd : c = '$'
    · subst hd
      simp [dropToDollar]
    · simp only [List.cons_append, dropToDollar, if_neg hd, if_neg hc]
      exact ih (fun e => hnl (List.mem_cons_of_mem c e))

theorem dropWhile_head_false {p : Char → Bool} :
    ∀ {x : List Char} {d : Char} {w : List Char}, x.dropWhile p = d :: w → p d = false := by
  intro x
  induction x with
  | nil => intro d w h; simp [List.dropWhile] at h
  | cons c r ih =>
    intro d w h
    simp only [List.dropWhile] at h
    split at h
    · exact ih h
    · next hc =>
      cases h
      simpa using hc

theorem subInline_append_nl :
    ∀ (n : Nat) (a : List Char), a.length ≤ n → '\n' ∉ a → ∀ b,
      subInline (a ++ '\n' :: b) = subInline a ++ '\n' :: subInline b := by
  intro n
  induction n with
  | zero =>
    intro a ha hnl b
    have ha0 : a = [] := by
      cases a with
      | nil => rfl
      | cons c r => simp at ha
    subst ha0
    have e : subInline ('\n' :: b) = '\n' :: subInline b := by
      rw [subInline.eq_def]; simp
    simp [e, subInline]
  | succ n ih =>
    intro a ha hnl b
    cases a with
    | nil =>
      have e : subInline ('\n' :: b) = '\n' :: subInline b := by
        rw [subInline.eq_def]; simp
      simp [e, subInline]
    | cons c a' =>
      have hnl' : '\n' ∉ a' := fun h => hnl (List.mem_cons_of_mem c h)
      have ha' : a'.length ≤ n := by simp at ha; omega
      by_cases hc : c = '$'
      · subst hc
        rw [List.cons_append]
        cases hdd : dropToDollar a' with
        | none =>
          have hdd2 : dropToDollar (a' ++ '\n' :: b) = none := by
            rw [dropToDollar_append_nl a' hnl' b, hdd]; rfl
          have e1 : subInline ('$' :: (a' ++ '\n' :: b)) =
              '$' :: subInline (a' ++ '\n' :: b) := by
            simp only [subInline]
            split
            · split
              · next rem2 h2 => rw [hdd2] at h2; cases h2
              · next _ => rfl
            · next hcond => exact absurd trivial hcond
          have e2 : subInline ('$' :: a') = '$' :: subInline a' := by
            simp only [subInline]
            split
            · split
              · next rem2 h2 => rw [hdd] at h2; cases h2
              · next _ => rfl
            · next hcond => exact absurd trivial hcond
          rw [e1, e2, ih a' ha' hnl' b]
          simp
        | some rem =>
          have hdd2 : dropToDollar (a' ++ '\n' :: b) = some (rem ++ '\n' :: b) := by
            rw [dropToDollar_append_nl a' hnl' b, hdd]; rfl
          have e1 : subInline ('$' :: (a' ++ '\n' :: b)) = subInline (rem ++ '\n' :: b) := by
            simp only [subInline]
            split
            · split
              · next rem2 h2 => rw [hdd2] at h2; cases h2; rfl
              · next h2 => rw [hdd2] at h2; cases h2
            · next hcond => exact absurd trivial hcond
          have e2 : subInline ('$' :: a') = subInline rem := by
            simp only [subInline]
            split
            · split
              · next rem2 h2 => rw [hdd] at h2; cases h2; rfl
              · next h2 => rw [hdd] at h2; cases h2
            · next hcond => exact absurd trivial hcond
          have hsub := dropToDollar_sublist hdd
          have hrem_len : rem.length ≤ n := le_trans hsub.length_le ha'
          have hrem_nl : '\n' ∉ rem := fun h => hnl' (hsub.subset h)
          rw [e1, e2, ih rem hrem_len hrem_nl b]
      · rw [List.cons_append]
        have e1 : subInline (c :: (a' ++ '\n' :: b)) = c :: subInline (a' ++ '\n' :: b) := by
          rw [subInline.eq_def]; simp [hc]
        have e2 : subInline (c :: a') = c :: subInline a' := by
          rw [subInline.eq_def]; simp [hc]
        rw [e1, e2, ih a' ha' hnl' b]
        simp

theorem takeWhile_no_nl (x : List Char) : '\n' ∉ x.takeWhile (· ≠ '\n') := by
  intro hm
  have := List.mem_takeWhile_imp hm
  simp at this

theorem subInline_dollarOK_fuel :
    ∀ (n : Nat) (x : List Char), x.length ≤ n → dollarOK (subInline x) := by
  intro n
  induction n with
  | zero =>
    intro x hx
    have hx0 : x = [] := by
      cases x with
      | nil => rfl
      | cons c r => simp at hx
    subst hx0
    intro ln hln
    simp [subInline, linesNl] at hln
    simp [hln]
  | succ n ih =>
    intro x hx
    cases hdw : x.dropWhile (· ≠ '\n') with
    | nil =>
      have hnl : '\n' ∉ x := by
        intro hm
        have hall := List.dropWhile_eq_nil_iff.mp hdw
        have := hall '\n' hm
        simp at this
      have hnl2 : '\n' ∉ subInline x := fun hm => hnl ((subInline_sublist x).subset hm)
      intro ln hln
      rw [linesNl_single _ hnl2] at hln
      rcases List.mem_singleton.mp hln with rfl
      exact subInline_count_le x hnl
    | cons d w =>
      have hd : d = '\n' := by
        have := dropWhile_head_false hdw
        simpa using this
      subst hd
      have hx2 : x = x.takeWhile (· ≠ '\n') ++ '\n' :: w := by
        conv_lhs => rw [← List.takeWhile_append_dropWhile (p := (· ≠ '\n')) (l := x)]
        rw [hdw]
      have hanl : '\n' ∉ x.takeWhile (· ≠ '\n') := takeWhile_no_nl x
      have hwlen : w.length ≤ n := by
        have h1 := congrArg List.length hx2
        simp at h1
        omega
      have hsil := subInline_append_nl (x.takeWhile (· ≠ '\n')).length _
        (Nat.le_refl _) hanl w
      have hnla : '\n' ∉ subInline (x.takeWhile (· ≠ '\n')) :=
        fun hm => hanl ((subInline_sublist _).subset hm)
      intro ln hln
      rw [hx2, hsil, linesNl_append _ _ hnla, linesNl_nl] at hln
      simp only [List.headD_cons, List.append_nil, List.tail_cons] at hln
      rcases List.mem_cons.mp hln with rfl | hmem
      · exact subInline_count_le _ hanl
      · exact ih w hwlen ln hmem

theorem subInline_id_fuel :
    ∀ (n : Nat) (x : List Char), x.length ≤ n → dollarOK x → subInline x = x := by
  intro n
  induction n with
  | zero =>
    intro x hx h
    have hx0 : x = [] := by
      cases x with
      | nil => rfl
      | cons c r => simp at hx
    subst hx0
    simp [subInline]
  | succ n ih =>
    intro x hx h
    cases hdw : x.dropWhile (· ≠ '\n') with
    | nil =>
      have hnl : '\n' ∉ x := by
        intro hm
        have hall := List.dropWhile_eq_nil_iff.mp hdw
        have := hall '\n' hm
        simp at this
      have hcx : x.count '$' ≤ 1 := h x (by rw [linesNl_single x hnl]; simp)
      exact subInline_id_of_line x hnl hcx
    | cons d w =>
      have hd : d = '\n' := by
        have := dropWhile_head_false hdw
        simpa using this
      subst hd
      have hx2 : x = x.takeWhile (· ≠ '\n') ++ '\n' :: w := by
        conv_lhs => rw [← List.takeWhile_append_dropWhile (p := (· ≠ '\n')) (l := x)]
        rw [hdw]
      have hanl : '\n' ∉ x.takeWhile (· ≠ '\n') := takeWhile_no_nl x
      have hwlen : w.length ≤ n := by
        have h1 := congrArg List.length hx2
        simp at h1
        omega
      have hlx : linesNl x = x.takeWhile (· ≠ '\n') :: linesNl w := by
        conv_lhs => rw [hx2]
        rw [linesNl_append _ _ hanl, linesNl_nl]
        simp
      have hca : (x.takeWhile (· ≠ '\n')).count '$' ≤ 1 := h _ (by rw [hlx]; simp)
      have hdw2 : dollarOK w := by
        intro ln hln
        exact h ln (by rw [hlx]; exact List.mem_cons_of_mem _ hln)
      have hsil := subInline_append_nl (x.takeWhile (· ≠ '\n')).length _
        (Nat.le_refl _) hanl w
      conv_lhs => rw [hx2]
      rw [hsil, subInline_id_of_line _ hanl hca, ih w hwlen hdw2, ← hx2]

theorem subInline_id (x : List Char) (h : dollarOK x) : subInline x = x :=
  subInline_id_fuel x.length x (Nat.le_refl _) h

theorem subInline_dollarOK (x : List Char) : dollarOK (subInline x) :=
  subInline_dollarOK_fuel x.length x (Nat.le_refl _)

theorem subDelim_dollar_id (cls : List Char) :
    ∀ x, dollarOK x → subDelim '$' ['$'] cls x = x := by
  intro x
  induction x with
  | nil => intro h; simp [subDelim]
  | cons c rest ih =>
    intro h
    have hpre : (['$', '$'] : List Char).isPrefixOf (c :: rest) = false := by
      cases rest with
      | nil => simp [List.isPrefixOf]
      | cons d r2 =>
        by_cases hc : c = '$'
        · by_cases hdd : d = '$'
          · exfalso
            subst hc
            subst hdd
            have hfl := dollarOK_first_line (show ('$' : Char) ≠ '\n' from by decide) h
            rw [linesNl_cons_ne '$' r2 (by decide)] at hfl
            simp only [List.headD_cons] at hfl
            rw [List.count_cons, List.count_cons] at hfl
            simp at hfl
          · simp [List.isPrefixOf]
            intro h1
            exact fun h2 => hdd h2.symm
        · simp [List.isPrefixOf]
          intro h1
          exact (hc h1.symm).elim
    have e : subDelim '$' ['$'] cls (c :: rest) = c :: subDelim '$' ['$'] cls rest := by
      rw [subDelim.eq_def]
      simp [hpre]
    rw [e, ih (dollarOK_tail h)]

theorem removeComments_id (x : List Char) (h : '%' ∉ x) : removeComments x = x := by
  induction x with
  | nil => simp [removeComments]
  | cons c r ih =>
    have hc : c ≠ '%' := fun e => h (e ▸ List.mem_cons_self c r)
    have e : removeComments (c :: r) = c :: removeComments r := by
      rw [removeComments.eq_def]
      simp [hc]
    rw [e, ih (fun e2 => h (List.mem_cons_of_mem c e2))]

theorem removeComments_no_percent (x : List Char) : '%' ∉ removeComments x := by
  induction x using removeComments.induct with
  | case1 => simp [removeComments]
  | case2 r ih =>
    have e : removeComments ('%' :: r) = removeComments (r.dropWhile (· ≠ '\n')) := by
      rw [removeComments.eq_def]
      simp
    rw [e]
    exact ih
  | case3 c r hc ih =>
    have e : removeComments (c :: r) = c :: removeComments r := by
      rw [removeComments.eq_def]
      simp [hc]
    rw [e]
    intro hm
    rcases List.mem_cons.mp hm with rfl | hm2
    · exact hc rfl
    · exact ih hm2

theorem subDelim_bs_id (os cls : List Char) :
    ∀ x, '\\' ∉ x → subDelim '\\' os cls x = x := by
  intro x
  induction x with
  | nil => intro h; simp [subDelim]
  | cons c rest ih =>
    intro h
    have hc : c ≠ '\\' := fun e => h (e ▸ List.mem_cons_self c rest)
    have hpre : (('\\' :: os) : List Char).isPrefixOf (c :: rest) = false := by
      simp [List.isPrefixOf]
      intro e
      exact absurd e.symm hc
    have e : subDelim '\\' os cls (c :: rest) = c :: subDelim '\\' os cls rest := by
      rw [subDelim.eq_def]
      simp [hpre]
    rw [e, ih (fun e2 => h (List.mem_cons_of_mem c e2))]

theorem subPair_bs_id (opn cls x : List Char) (hh : opn.head? = some '\\')
    (h : '\\' ∉ x) : subPair opn cls x = x := by
  cases opn with
  | nil => simp at hh
  | cons o os =>
    simp at hh
    subst hh
    exact subDelim_bs_id os cls x h

theorem removeEnvs_id (x : List Char) (h : '\\' ∉ x) : removeEnvs x = x := by
  unfold removeEnvs
  have hgen : ∀ (envs : List (List Char)) (y : List Char), '\\' ∉ y →
      (envs.foldl
        (fun acc env =>
          subPair (beginPat (env ++ ['*'])) (endPat (env ++ ['*']))
            (subPair (beginPat env) (endPat env) acc)) y) = y := by
    intro envs
    induction envs with
    | nil => intro y hy; simp
    | cons e es ih =>
      intro y hy
      simp only [List.foldl_cons]
      rw [subPair_bs_id (beginPat e) _ y rfl hy,
        subPair_bs_id (beginPat (e ++ ['*'])) _ y rfl hy]
      exact ih y hy
  exact hgen envsToRemove x h

theorem subCmdArgs_id (x : List Char) (h : '\\' ∉ x) : subCmdArgs x = x := by
  induction x with
  | nil => simp [subCmdArgs]
  | cons c r ih =>
    have hc : c ≠ '\\' := fun e => h (e ▸ List.mem_cons_self c r)
    have e : subCmdArgs (c :: r) = c :: subCmdArgs r := by
      rw [subCmdArgs.eq_def]
      simp [hc]
    rw [e, ih (fun e2 => h (List.mem_cons_of_mem c e2))]

theorem subCmdBare_id (x : List Char) (h : '\\' ∉ x) : subCmdBare x = x := by
  induction x with
  | nil => simp [subCmdBare]
  | cons c r ih =>
    have hc : c ≠ '\\' := fun e => h (e ▸ List.mem_cons_self c r)
    have e : subCmdBare (c :: r) = c :: subCmdBare r := by
      rw [subCmdBare.eq_def]
      simp [hc]
    rw [e, ih (fun e2 => h (List.mem_cons_of_mem c e2))]

theorem removeBraces_id (x : List Char) (h1 : '\x7b' ∉ x) (h2 : '\x7d' ∉ x) :
    removeBraces x = x := by
  unfold removeBraces
  apply List.filter_eq_self.mpr
  intro a ha
  have ha1 : a ≠ '\x7b' := fun e => h1 (e ▸ ha)
  have ha2 : a ≠ '\x7d' := fun e => h2 (e ▸ ha)
  simp [ha1, ha2]

theorem removeBraces_no_brace (x : List Char) :
    '\x7b' ∉ removeBraces x ∧ '\x7d' ∉ removeBraces x := by
  constructor <;>
  · intro hm
    have := List.of_mem_filter hm
    simp at this

theorem mem_intercalate_nl :
    ∀ (ls : List (List Char)) (c : Char), c ∈ List.intercalate ['\n'] ls →
      c = '\n' ∨ ∃ a ∈ ls, c ∈ a := by
  intro ls
  induction ls with
  | nil => intro c hc; simp [List.intercalate] at hc
  | cons a t ih =>
    cases t with
    | nil =>
      intro c hc
      simp [List.intercalate] at hc
      exact Or.inr ⟨a, by simp, hc⟩
    | cons b t2 =>
      intro c hc
      rw [intercalate_cons_cons] at hc
      rcases List.mem_append.mp hc with hc1 | hc2
      · exact Or.inr ⟨a, by simp, hc1⟩
      · rcases List.mem_cons.mp hc2 with rfl | hc3
        · exact Or.inl rfl
        · rcases ih c hc3 with h | ⟨a2, ha2, hca⟩
          · exact Or.inl h
          · exact Or.inr ⟨a2, List.mem_cons_of_mem a ha2, hca⟩

theorem pyStrip_sublist (a : List Char) : (pyStrip a).Sublist a := by
  unfold pyStrip
  exact ((List.rdropWhile_prefix _ _).sublist).trans (List.dropWhile_sublist _)

theorem pySplitlines_mem :
    ∀ (x : List Char), ∀ ln ∈ pySplitlines x, ∀ c ∈ ln, c ∈ x := by
  intro x
  induction x using pySplitlines.induct with
  | case1 => rw [pySplitlines_nil]; simp
  | case2 r ih =>
    rw [pySplitlines_crlf]
    intro ln hln c hc
    rcases List.mem_cons.mp hln with rfl | hm
    · simp at hc
    · exact List.mem_cons_of_mem _ (List.mem_cons_of_mem _ (ih ln hm c hc))
  | case3 d r hexcl hb ih =>
    rw [pySplitlines_cons_bdy d r (fun r2 h1 h2 => hexcl r2 h1 h2) hb]
    intro ln hln c hc
    rcases List.mem_cons.mp hln with rfl | hm
    · simp at hc
    · exact List.mem_cons_of_mem _ (ih ln hm c hc)
  | case4 d r hexcl hb hps ih =>
    rw [pySplitlines_cons_not_bdy d r (by simpa using hb), hps]
    intro ln hln c hc
    rcases List.mem_cons.mp hln with rfl | hm
    · rcases List.mem_singleton.mp hc with rfl
      exact List.mem_cons_self _ _
    · simp at hm
  | case5 d r hexcl hb h0 t0 hps ih =>
    rw [pySplitlines_cons_not_bdy d r (by simpa using hb), hps]
    intro ln hln c hc
    rcases List.mem_cons.mp hln with rfl | hm
    · rcases List.mem_cons.mp hc with rfl | hc2
      · exact List.mem_cons_self _ _
      · exact List.mem_cons_of_mem _ (ih h0 (by rw [hps]; simp) c hc2)
    · exact List.mem_cons_of_mem _ (ih ln (by rw [hps]; exact List.mem_cons_of_mem _ hm) c hc)

theorem stripLines_mem (x : List Char) (c : Char) (h : c ∈ stripLines x) :
    c ∈ x ∨ c = '\n' := by
  unfold stripLines at h
  rcases mem_intercalate_nl _ c h with h1 | ⟨a, ha, hca⟩
  · exact Or.inr h1
  · rcases List.mem_map.mp ha with ⟨ln, hln, rfl⟩
    exact Or.inl (pySplitlines_mem x ln hln c ((pyStrip_sublist ln).subset hca))

theorem linesNl_filter (p : Char → Bool) (hp : p '\n' = true) :
    ∀ x : List Char, linesNl (x.filter p) = (linesNl x).map (·.filter p) := by
  intro x
  induction x with
  | nil => simp [linesNl]
  | cons c r ih =>
    by_cases hc : c = '\n'
    · subst hc
      rw [List.filter_cons_of_pos hp, linesNl_nl, linesNl_nl, ih]
      simp
    · cases hlr : linesNl r with
      | nil => exact absurd hlr (linesNl_ne_nil r)
      | cons h0 t0 =>
        by_cases hpc : p c
        · rw [List.filter_cons_of_pos hpc, linesNl_cons_ne c _ hc, ih,
            linesNl_cons_ne c r hc, hlr]
          simp [List.filter_cons_of_pos hpc]
        · rw [List.filter_cons_of_neg (by simpa using hpc), ih, linesNl_cons_ne c r hc, hlr]
          simp [List.filter_cons_of_neg (by simpa using hpc)]

theorem dollarOK_filter (p : Char → Bool) (hp : p '\n' = true) (x : List Char)
    (h : dollarOK x) : dollarOK (x.filter p) := by
  intro ln hln
  rw [linesNl_filter p hp x] at hln
  rcases List.mem_map.mp hln with ⟨l0, hl0, rfl⟩
  exact le_trans ((List.filter_sublist l0).count_le '$') (h l0 hl0)

theorem pySplitlines_no_bdy :
    ∀ (x : List Char), ∀ ln ∈ pySplitlines x, ∀ c ∈ ln, isLineBoundary c = false := by
  intro x
  induction x using pySplitlines.induct with
  | case1 => rw [pySplitlines_nil]; simp
  | case2 r ih =>
    rw [pySplitlines_crlf]
    intro ln hln c hc
    rcases List.mem_cons.mp hln with rfl | hm
    · simp at hc
    · exact ih ln hm c hc
  | case3 d r hexcl hb ih =>
    rw [pySplitlines_cons_bdy d r (fun r2 h1 h2 => hexcl r2 h1 h2) hb]
    intro ln hln c hc
    rcases List.mem_cons.mp hln with rfl | hm
    · simp at hc
    · exact ih ln hm c hc
  | case4 d r hexcl hb hps ih =>
    rw [pySplitlines_cons_not_bdy d r (by simpa using hb), hps]
    intro ln hln c hc
    rcases List.mem_cons.mp hln with rfl | hm
    · rcases List.mem_singleton.mp hc with rfl
      simpa using hb
    · simp at hm
  | case5 d r hexcl hb h0 t0 hps ih =>
    rw [pySplitlines_cons_not_bdy d r (by simpa using hb), hps]
    intro ln hln c hc
    rcases List.mem_cons.mp hln with rfl | hm
    · rcases List.mem_cons.mp hc with rfl | hc2
      · simpa using hb
      · exact ih h0 (by rw [hps]; simp) c hc2
    · exact ih ln (by rw [hps]; exact List.mem_cons_of_mem _ hm) c hc

theorem pySplitlines_head_isPrefix :
    ∀ (x : List Char) (h : List Char) (t : List (List Char)),
      pySplitlines x = h :: t → h <+: ((linesNl x).headD []) := by
  intro x
  induction x using pySplitlines.induct with
  | case1 => rw [pySplitlines_nil]; intro h t hh; cases hh
  | case2 r ih =>
    rw [pySplitlines_crlf]
    intro h t hh
    injection hh with h1 h2
    subst h1
    exact List.nil_prefix
  | case3 d r hexcl hb ih =>
    rw [pySplitlines_cons_bdy d r (fun r2 h1 h2 => hexcl r2 h1 h2) hb]
    intro h t hh
    injection hh with h1 h2
    subst h1
    exact List.nil_prefix
  | case4 d r hexcl hb hps ih =>
    have hr : r = [] := by
      by_contra hne
      exact pySplitlines_ne_nil r hne hps
    subst hr
    rw [pySplitlines_cons_not_bdy d [] (by simpa using hb), pySplitlines_nil]
    intro h t hh
    injection hh with h1 h2
    subst h1
    have hd : d ≠ '\n' := by
      intro e
      subst e
      simp [isLineBoundary] at hb
    rw [linesNl_cons_ne d [] hd]
    simp [linesNl]
  | case5 d r hexcl hb h0 t0 hps ih =>
    rw [pySplitlines_cons_not_bdy d r (by simpa using hb), hps]
    intro h t hh
    injection hh with h1 h2
    subst h1
    have hd : d ≠ '\n' := by
      intro e
      subst e
      simp [isLineBoundary] at hb
    rw [linesNl_cons_ne d r hd]
    simp only [List.headD_cons]
    obtain ⟨s, hs⟩ := ih h0 t0 hps
    exact ⟨s, by rw [List.cons_append, hs]⟩

theorem count_dollar_splitlines :
    ∀ (x : List Char), dollarOK x → ∀ ln ∈ pySplitlines x, ln.count '$' ≤ 1 := by
  intro x
  induction x using pySplitlines.induct with
  | case1 => rw [pySplitlines_nil]; simp
  | case2 r ih =>
    rw [pySplitlines_crlf]
    intro h ln hln
    rcases List.mem_cons.mp hln with rfl | hm
    · simp
    · exact ih (dollarOK_tail (dollarOK_tail h)) ln hm
  | case3 d r hexcl hb ih =>
    rw [pySplitlines_cons_bdy d r (fun r2 h1 h2 => hexcl r2 h1 h2) hb]
    intro h ln hln
    rcases List.mem_cons.mp hln with rfl | hm
    · simp
    · exact ih (dollarOK_tail h) ln hm
  | case4 d r hexcl hb hps ih =>
    rw [pySplitlines_cons_not_bdy d r (by simpa using hb), hps]
    intro h ln hln
    rcases List.mem_cons.mp hln with rfl | hm
    · rw [List.count_cons]
      simp
      split <;> simp
    · simp at hm
  | case5 d r hexcl hb h0 t0 hps ih =>
    rw [pySplitlines_cons_not_bdy d r (by simpa using hb), hps]
    intro h ln hln
    have hd : d ≠ '\n' := by
      intro e
      subst e
      simp [isLineBoundary] at hb
    rcases List.mem_cons.mp hln with rfl | hm
    · have hfl := dollarOK_first_line hd h
      have hpre := pySplitlines_head_isPrefix r h0 t0 hps
      have hsub : (d :: h0).Sublist (d :: (linesNl r).headD []) :=
        (hpre.sublist).cons₂ d
      exact le_trans (hsub.count_le '$') hfl
    · exact ih (dollarOK_tail h) ln (by rw [hps]; exact List.mem_cons_of_mem _ hm)

theorem intercalate_singleton (a : List Char) : List.intercalate ['\n'] [a] = a := by
  simp [List.intercalate, List.intersperse]

theorem linesNl_intercalate :
    ∀ ls : List (List Char), (∀ a ∈ ls, '\n' ∉ a) → ls ≠ [] →
      linesNl (List.intercalate ['\n'] ls) = ls := by
  intro ls
  induction ls with
  | nil => intro _ h; exact absurd rfl h
  | cons a t ih =>
    intro hfree _
    cases t with
    | nil =>
      rw [intercalate_singleton]
      exact linesNl_single a (hfree a (by simp))
    | cons b t2 =>
      rw [intercalate_cons_cons, linesNl_append _ _ (hfree a (by simp)), linesNl_nl]
      simp only [List.headD_cons, List.append_nil, List.tail_cons]
      rw [ih (fun y hy => hfree y (List.mem_cons_of_mem a hy)) (by simp)]

theorem dollarOK_stripLines (u : List Char) (h : dollarOK u) : dollarOK (stripLines u) := by
  unfold stripLines
  cases hsp : pySplitlines u with
  | nil =>
    simp only [List.map_nil]
    intro ln hln
    simp [List.intercalate, linesNl] at hln
    simp [hln]
  | cons sp0 spt =>
    have hfree : ∀ a ∈ (pySplitlines u).map pyStrip, '\n' ∉ a := by
      intro a ha
      rcases List.mem_map.mp ha with ⟨ln, hln, rfl⟩
      intro hm
      have := pySplitlines_no_bdy u ln hln '\n' ((pyStrip_sublist ln).subset hm)
      simp [isLineBoundary] at this
    rw [← hsp]
    intro ln hln
    rw [linesNl_intercalate _ hfree (by rw [hsp]; simp)] at hln
    rcases List.mem_map.mp hln with ⟨l0, hl0, rfl⟩
    exact le_trans ((pyStrip_sublist l0).count_le '$') (count_dollar_splitlines u h l0 hl0)

theorem dropWhile_idem (p : Char → Bool) (a : List Char) :
    (a.dropWhile p).dropWhile p = a.dropWhile p := by
  induction a with
  | nil => simp
  | cons c r ih =>
    by_cases hc : p c
    · rw [List.dropWhile_cons_of_pos hc, ih]
    · rw [List.dropWhile_cons_of_neg hc, List.dropWhile_cons_of_neg hc]

theorem dropWhile_eq_self_of_isPrefix (p : Char → Bool) (y z : List Char)
    (hpre : z <+: y) (hy : y.dropWhile p = y) : z.dropWhile p = z := by
  cases z with
  | nil => simp
  | cons c z' =>
    obtain ⟨s, hs⟩ := hpre
    have hy' : y = c :: (z' ++ s) := by rw [← hs]; simp
    have hpc : p c = false := by
      by_contra hb
      have hb' : p c = true := by simpa using hb
      have hy2 := hy
      rw [hy', List.dropWhile_cons_of_pos hb'] at hy2
      have hlen := congrArg List.length hy2
      rw [List.length_cons] at hlen
      have hle := lengthDropWhileLe p (z' ++ s)
      omega
    rw [List.dropWhile_cons_of_neg (by simp [hpc])]

theorem pyStrip_idem (a : List Char) : pyStrip (pyStrip a) = pyStrip a := by
  unfold pyStrip
  have h1 : (List.rdropWhile pyIsSpace (a.dropWhile pyIsSpace)).dropWhile pyIsSpace =
      List.rdropWhile pyIsSpace (a.dropWhile pyIsSpace) := by
    apply dropWhile_eq_self_of_isPrefix pyIsSpace (a.dropWhile pyIsSpace)
    · exact List.rdropWhile_prefix _ _
    · exact dropWhile_idem pyIsSpace a
  rw [h1, List.rdropWhile_idempotent]

theorem getLast?_append_cons (y : List Char) (c : Char) (z : List Char) :
    (y ++ c :: z).getLast? = (c :: z).getLast? := by
  induction y with
  | nil => simp
  | cons d y' ih =>
    rw [List.cons_append, getLast?_cons_of_ne_nil d (by simp), ih]

theorem intercalate_getLast_nl :
    ∀ ls : List (List Char), 2 ≤ ls.length → ls.getLast? = some [] →
      (List.intercalate ['\n'] ls).getLast? = some '\n' := by
  intro ls
  induction ls with
  | nil => simp
  | cons a t ih =>
    intro hlen hlast
    cases t with
    | nil => simp at hlen
    | cons b t2 =>
      rw [intercalate_cons_cons, getLast?_append_cons]
      cases t2 with
      | nil =>
        have hb : b = [] := by
          rw [getLast?_cons_of_ne_nil a (by simp)] at hlast
          simpa using hlast
        subst hb
        rw [intercalate_singleton]
        simp
      | cons c t3 =>
        have hw := ih (by simp) (by rw [getLast?_cons_of_ne_nil a (by simp)] at hlast; exact hlast)
        have hwne : List.intercalate ['\n'] (b :: c :: t3) ≠ [] := by
          intro e
          rw [e] at hw
          simp at hw
        rw [getLast?_cons_of_ne_nil '\n' hwne]
        exact hw

theorem pySplitlines_single (a : List Char) (hfree : ∀ c ∈ a, isLineBoundary c = false)
    (hne : a ≠ []) : pySplitlines a = [a] := by
  induction a with
  | nil => exact absurd rfl hne
  | cons c a' ih =>
    rw [pySplitlines_cons_not_bdy c a' (hfree c (List.mem_cons_self c a'))]
    cases a' with
    | nil => rw [pySplitlines_nil]
    | cons d a2 =>
      rw [ih (fun e he => hfree e (List.mem_cons_of_mem c he)) (by simp)]

theorem pySplitlines_append_nl (a : List Char) (hfree : ∀ c ∈ a, isLineBoundary c = false) :
    ∀ z, pySplitlines (a ++ '\n' :: z) = a :: pySplitlines z := by
  induction a with
  | nil =>
    intro z
    rw [List.nil_append, pySplitlines_cons_bdy '\n' z (by intro r2 h1 h2; simp at h1)
      (by decide)]
  | cons c a' ih =>
    intro z
    rw [List.cons_append, pySplitlines_cons_not_bdy c _ (hfree c (List.mem_cons_self c a')),
      ih (fun e he => hfree e (List.mem_cons_of_mem c he)) z]

theorem pySplitlines_intercalate :
    ∀ ls : List (List Char), (∀ a ∈ ls, ∀ c ∈ a, isLineBoundary c = false) → ls ≠ [] →
      (∀ e, ls.getLast? = some e → e ≠ []) →
      pySplitlines (List.intercalate ['\n'] ls) = ls := by
  intro ls
  induction ls with
  | nil => intro _ h _; exact absurd rfl h
  | cons a t ih =>
    intro hfree _ hlast
    cases t with
    | nil =>
      rw [intercalate_singleton]
      refine pySplitlines_single a (hfree a (by simp)) ?_
      exact hlast a (by simp)
    | cons b t2 =>
      rw [intercalate_cons_cons, pySplitlines_append_nl a (hfree a (by simp)),
        ih (fun y hy => hfree y (List.mem_cons_of_mem a hy)) (by simp)
          (fun e he => hlast e (by rw [getLast?_cons_of_ne_nil a (by simp)]; exact he))]

theorem stripLines_idem (u : List Char)
    (hnl : (stripLines u).getLast? ≠ some '\n') :
    stripLines (stripLines u) = stripLines u := by
  have hfree : ∀ a ∈ (pySplitlines u).map pyStrip, ∀ c ∈ a, isLineBoundary c = false := by
    intro a ha c hc
    rcases List.mem_map.mp ha with ⟨ln, hln, rfl⟩
    exact pySplitlines_no_bdy u ln hln c ((pyStrip_sublist ln).subset hc)
  cases hl : (pySplitlines u).map pyStrip with
  | nil =>
    have e : stripLines u = [] := by
      unfold stripLines
      rw [hl]
      simp [List.intercalate]
    rw [e]
    unfold stripLines
    rw [pySplitlines_nil]
    simp [List.intercalate]
  | cons l0 lt =>
    by_cases hlast : ((pySplitlines u).map pyStrip).getLast? = some []
    · cases lt with
      | nil =>
        have hl0 : l0 = [] := by
          rw [hl] at hlast
          simpa using hlast
        subst hl0
        have e : stripLines u = [] := by
          unfold stripLines
          rw [hl, intercalate_singleton]
        rw [e]
        unfold stripLines
        rw [pySplitlines_nil]
        simp [List.intercalate]
      | cons l1 lt2 =>
        exfalso
        apply hnl
        show (stripLines u).getLast? = some '\n'
        unfold stripLines
        refine intercalate_getLast_nl _ ?_ hlast
        rw [hl]
        simp
    · have hlast' : ∀ e, ((pySplitlines u).map pyStrip).getLast? = some e → e ≠ [] :=
        fun e he hee => hlast (hee ▸ he)
      have hps : pySplitlines (stripLines u) = (pySplitlines u).map pyStrip := by
        unfold stripLines
        exact pySplitlines_intercalate _ hfree (by rw [hl]; simp) hlast'
      show List.intercalate ['\n'] ((pySplitlines (stripLines u)).map pyStrip) = stripLines u
      rw [hps, List.map_map]
      have hmap : (pySplitlines u).map (pyStrip ∘ pyStrip) = (pySplitlines u).map pyStrip := by
        apply List.map_congr_left
        intro a _
        exact pyStrip_idem a
      rw [hmap]
      rfl

theorem forall2_refl (a : List (List Char)) : List.Forall₂ List.Sublist a a := by
  induction a with
  | nil => exact List.Forall₂.nil
  | cons h t ih => exact List.Forall₂.cons (List.Sublist.refl h) ih

theorem forall2_mem_left {R : List Char → List Char → Prop} :
    ∀ {a b : List (List Char)}, List.Forall₂ R a b → ∀ x ∈ a, ∃ y ∈ b, R x y := by
  intro a b h
  induction h with
  | nil => intro x hx; simp at hx
  | cons hr _ ih =>
    intro x hx
    rcases List.mem_cons.mp hx with rfl | hm
    · exact ⟨_, List.mem_cons_self _ _, hr⟩
    · rcases ih x hm with ⟨y, hy, hxy⟩
      exact ⟨y, List.mem_cons_of_mem _ hy, hxy⟩

theorem dollarOK_of_forall2 {s t : List Char}
    (h : List.Forall₂ List.Sublist (linesNl s) (linesNl t)) (hd : dollarOK t) :
    dollarOK s := by
  intro ln hln
  rcases forall2_mem_left h ln hln with ⟨y, hy, hsub⟩
  exact le_trans (hsub.count_le '$') (hd y hy)

/-- Prepending the same character to both texts preserves the per-line
sublist correspondence. -/
theorem forall2_lines_cons (c : Char) {s r : List Char}
    (h : List.Forall₂ List.Sublist (linesNl s) (linesNl r)) :
    List.Forall₂ List.Sublist (linesNl (c :: s)) (linesNl (c :: r)) := by
  by_cases hc : c = '\n'
  · subst hc
    rw [linesNl_nl, linesNl_nl]
    exact List.Forall₂.cons (List.Sublist.refl []) h
  · cases hs : linesNl s with
    | nil => exact absurd hs (linesNl_ne_nil s)
    | cons h1 t1 =>
      cases hr : linesNl r with
      | nil => exact absurd hr (linesNl_ne_nil r)
      | cons h2 t2 =>
        rw [hs, hr] at h
        rcases h with _ | ⟨hh, ht⟩
        rw [linesNl_cons_ne c s hc, linesNl_cons_ne c r hc, hs, hr]
        simp only [List.headD_cons, List.tail_cons]
        exact List.Forall₂.cons (hh.cons₂ c) ht

/-- Deleting a newline-free prefix only shrinks the first line: the per-line
sublist correspondence survives on the right. -/
theorem forall2_lines_pre {y z s : List Char} (hy : '\n' ∉ y)
    (h : List.Forall₂ List.Sublist (linesNl s) (linesNl z)) :
    List.Forall₂ List.Sublist (linesNl s) (linesNl (y ++ z)) := by
  cases hz : linesNl z with
  | nil => exact absurd hz (linesNl_ne_nil z)
  | cons h2 t2 =>
    cases hs : linesNl s with
    | nil => exact absurd hs (linesNl_ne_nil s)
    | cons h1 t1 =>
      rw [hs, hz] at h
      rcases h with _ | ⟨hh, ht⟩
      rw [linesNl_append y z hy, hz]
      simp only [List.headD_cons, List.tail_cons]
      exact List.Forall₂.cons (hh.trans (List.sublist_append_right y h2)) ht

/-- A successful class scan consumes only characters from `{'[', '^', ']'}`,
never a newline. -/
theorem scanClassToBracket_pre :
    ∀ {l r : List Char}, scanClassToBracket l = some r → ∃ p, l = p ++ r ∧ '\n' ∉ p := by
  intro l
  induction l with
  | nil => intro r h; simp [scanClassToBracket] at h
  | cons c rest ih =>
    intro r h
    simp only [scanClassToBracket] at h
    split at h
    · next hc =>
      cases h
      subst hc
      exact ⟨[']'], rfl, by decide⟩
    · split at h
      · next hcls =>
        rcases ih h with ⟨p, hp, hnp⟩
        refine ⟨c :: p, by simp [hp], ?_⟩
        intro hm
        rcases List.mem_cons.mp hm with heq | hm2
        · rw [← heq] at hcls
          exact absurd hcls (by decide)
        · exact hnp hm2
      · cases h

/-- A successful brace scan stays on the current line. -/
theorem dropToBrace_pre :
    ∀ {l r : List Char}, dropToBrace l = some r → ∃ p, l = p ++ r ∧ '\n' ∉ p := by
  intro l
  induction l with
  | nil => intro r h; simp [dropToBrace] at h
  | cons c rest ih =>
    intro r h
    simp only [dropToBrace] at h
    split at h
    · next hc =>
      cases h
      subst hc
      exact ⟨['\x7d'], rfl, by decide⟩
    · split at h
      · cases h
      · next hc hn =>
        rcases ih h with ⟨p, hp, hnp⟩
        refine ⟨c :: p, by simp [hp], ?_⟩
        intro hm
        rcases List.mem_cons.mp hm with heq | hm2
        · exact hn heq.symm
        · exact hnp hm2

theorem dropBracketOpt_pre (l : List Char) :
    ∃ p, l = p ++ dropBracketOpt l ∧ '\n' ∉ p := by
  cases l with
  | nil => exact ⟨[], rfl, by simp⟩
  | cons c r =>
    by_cases hc : c = '\\'
    · cases hscan : scanClassToBracket r with
      | none =>
        have e : dropBracketOpt (c :: r) = c :: r := by simp [dropBracketOpt, hc, hscan]
        exact ⟨[], by simp [e], by simp⟩
      | some rem =>
        have e : dropBracketOpt (c :: r) = rem := by simp [dropBracketOpt, hc, hscan]
        rcases scanClassToBracket_pre hscan with ⟨p, hp, hnp⟩
        refine ⟨c :: p, by rw [e]; simp [hp], ?_⟩
        intro hm
        rcases List.mem_cons.mp hm with heq | hm2
        · rw [hc] at heq
          exact absurd heq (by decide)
        · exact hnp hm2
    · have e : dropBracketOpt (c :: r) = c :: r := by simp [dropBracketOpt, hc]
      exact ⟨[], by simp [e], by simp⟩

theorem dropBraceOpt_pre (l : List Char) :
    ∃ p, l = p ++ dropBraceOpt l ∧ '\n' ∉ p := by
  cases l with
  | nil => exact ⟨[], rfl, by simp⟩
  | cons c r =>
    by_cases hc : c = '\x7b'
    · cases hscan : dropToBrace r with
      | none =>
        have e : dropBraceOpt (c :: r) = c :: r := by simp [dropBraceOpt, hc, hscan]
        exact ⟨[], by simp [e], by simp⟩
      | some rem =>
        have e : dropBraceOpt (c :: r) = rem := by simp [dropBraceOpt, hc, hscan]
        rcases dropToBrace_pre hscan with ⟨p, hp, hnp⟩
        refine ⟨c :: p, by rw [e]; simp [hp], ?_⟩
        intro hm
        rcases List.mem_cons.mp hm with heq | hm2
        · rw [hc] at heq
          exact absurd heq (by decide)
        · exact hnp hm2
    · have e : dropBraceOpt (c :: r) = c :: r := by simp [dropBraceOpt, hc]
      exact ⟨[], by simp [e], by simp⟩

theorem dropWhileAlpha_pre (l : List Char) :
    ∃ p, l = p ++ l.dropWhile Char.isAlpha ∧ '\n' ∉ p := by
  refine ⟨l.takeWhile Char.isAlpha, (List.takeWhile_append_dropWhile Char.isAlpha l).symm, ?_⟩
  intro hm
  have halpha := List.mem_takeWhile_imp hm
  exact absurd halpha (by decide)

/-- Pass 5 deletes no newline (the command name is letters, the broken
option group skips only class characters, and `.` in the brace group stops
at a newline), so it shrinks each line in place: per-line sublist. -/
theorem subCmdArgs_forall2 (l : List Char) :
    List.Forall₂ List.Sublist (linesNl (subCmdArgs l)) (linesNl l) := by
  induction l using subCmdArgs.induct with
  | case1 =>
    have e : subCmdArgs [] = [] := by simp [subCmdArgs]
    rw [e]
    exact forall2_refl _
  | case2 =>
    have e : subCmdArgs ['\\'] = ['\\'] := by rw [subCmdArgs.eq_def]; simp
    rw [e]
    exact forall2_refl _
  | case3 d t hd ih =>
    have e : subCmdArgs ('\\' :: d :: t) =
        subCmdArgs (dropBraceOpt (dropBracketOpt (t.dropWhile Char.isAlpha))) := by
      rw [subCmdArgs.eq_def]; simp [hd]
    rw [e]
    rcases dropWhileAlpha_pre t with ⟨p0, hp0, hn0⟩
    rcases dropBracketOpt_pre (t.dropWhile Char.isAlpha) with ⟨p1, hp1, hn1⟩
    rcases dropBraceOpt_pre (dropBracketOpt (t.dropWhile Char.isAlpha)) with ⟨p2, hp2, hn2⟩
    have hrepr : ('\\' :: d :: t) = ('\\' :: d :: (p0 ++ p1 ++ p2)) ++
        dropBraceOpt (dropBracketOpt (t.dropWhile Char.isAlpha)) := by
      simp only [List.cons_append, List.append_assoc]
      rw [← hp2, ← hp1, ← hp0]
    rw [hrepr]
    refine forall2_lines_pre ?_ ih
    intro hm
    rcases List.mem_cons.mp hm with heq | hm
    · exact absurd heq (by decide)
    · rcases List.mem_cons.mp hm with heq | hm
      · rw [← heq] at hd
        exact absurd hd (by decide)
      · rcases List.mem_append.mp hm with hm2 | hm2
        · rcases List.mem_append.mp hm2 with hm3 | hm3
          · exact hn0 hm3
          · exact hn1 hm3
        · exact hn2 hm2
  | case4 d t hd ih =>
    have e : subCmdArgs ('\\' :: d :: t) = '\\' :: subCmdArgs (d :: t) := by
      rw [subCmdArgs.eq_def]; simp [hd]
    rw [e]
    exact forall2_lines_cons '\\' ih
  | case5 c r hc ih =>
    have e : subCmdArgs (c :: r) = c :: subCmdArgs r := by
      rw [subCmdArgs.eq_def]; simp [hc]
    rw [e]
    exact forall2_lines_cons c ih

/-- Pass 6 likewise deletes only backslash-plus-letters tokens, never a
newline. -/
theorem subCmdBare_forall2 (l : List Char) :
    List.Forall₂ List.Sublist (linesNl (subCmdBare l)) (linesNl l) := by
  induction l using subCmdBare.induct with
  | case1 =>
    have e : subCmdBare [] = [] := by simp [subCmdBare]
    rw [e]
    exact forall2_refl _
  | case2 =>
    have e : subCmdBare ['\\'] = ['\\'] := by rw [subCmdBare.eq_def]; simp
    rw [e]
    exact forall2_refl _
  | case3 d t hd ih =>
    have e : subCmdBare ('\\' :: d :: t) = subCmdBare (t.dropWhile Char.isAlpha) := by
      rw [subCmdBare.eq_def]; simp [hd]
    rw [e]
    rcases dropWhileAlpha_pre t with ⟨p0, hp0, hn0⟩
    have hrepr : ('\\' :: d :: t) = ('\\' :: d :: p0) ++ t.dropWhile Char.isAlpha := by
      simp only [List.cons_append]
      rw [← hp0]
    rw [hrepr]
    refine forall2_lines_pre ?_ ih
    intro hm
    rcases List.mem_cons.mp hm with heq | hm
    · exact absurd heq (by decide)
    · rcases List.mem_cons.mp hm with heq | hm
      · rw [← heq] at hd
        exact absurd hd (by decide)
      · exact hn0 hm
  | case4 d t hd ih =>
    have e : subCmdBare ('\\' :: d :: t) = '\\' :: subCmdBare (d :: t) := by
      rw [subCmdBare.eq_def]; simp [hd]
    rw [e]
    exact forall2_lines_cons '\\' ih
  | case5 c r hc ih =>
    have e : subCmdBare (c :: r) = c :: subCmdBare r := by
      rw [subCmdBare.eq_def]; simp [hc]
    rw [e]
    exact forall2_lines_cons c ih

theorem dollarOK_subCmdArgs (x : List Char) (h : dollarOK x) : dollarOK (subCmdArgs x) :=
  dollarOK_of_forall2 (subCmdArgs_forall2 x) h

theorem dollarOK_subCmdBare (x : List Char) (h : dollarOK x) : dollarOK (subCmdBare x) :=
  dollarOK_of_forall2 (subCmdBare_forall2 x) h

/-- C7 counterexample: the Cleaner is not idempotent.  Two failures: a
trailing blank line (`"\n\n"` cleans to `"\n"`, which cleans to `""` because
`splitlines` drops the final empty segment), and brace removal gluing a
backslash onto letters (`"\{abc"` cleans to `"\abc"`, which the second pass
deletes as a command token). -/
theorem c7_not_idempotent_counterexample :
    clean_latex (clean_latex "\n\n".data) ≠ clean_latex "\n\n".data ∧
    clean_latex (clean_latex "\\\x7babc".data) ≠ clean_latex "\\\x7babc".data := by
  have h1 : clean_latex "\n\n".data = ['\n'] := by
    simp [clean_latex, removeComments, removeEnvs, envsToRemove, beginPat, endPat, subPair,
      subDelim, dropThroughFirst, subInline, dropToDollar, subCmdArgs, subCmdBare,
      dropBracketOpt, scanClassToBracket, dropBraceOpt, dropToBrace, removeBraces,
      stripLines, pySplitlines, pyStrip, pyIsSpace, isLineBoundary, List.rdropWhile,
      List.intercalate, List.intersperse]
  have h2 : clean_latex ['\n'] = [] := by
    simp [clean_latex, removeComments, removeEnvs, envsToRemove, beginPat, endPat, subPair,
      subDelim, dropThroughFirst, subInline, dropToDollar, subCmdArgs, subCmdBare,
      dropBracketOpt, scanClassToBracket, dropBraceOpt, dropToBrace, removeBraces,
      stripLines, pySplitlines, pyStrip, pyIsSpace, isLineBoundary, List.rdropWhile,
      List.intercalate, List.intersperse]
  have h3 : clean_latex "\\\x7babc".data = ['\\', 'a', 'b', 'c'] := by
    simp [clean_latex, removeComments, removeEnvs, envsToRemove, beginPat, endPat, subPair,
      subDelim, dropThroughFirst, subInline, dropToDollar, subCmdArgs, subCmdBare,
      dropBracketOpt, scanClassToBracket, dropBraceOpt, dropToBrace, removeBraces,
      stripLines, pySplitlines, pyStrip, pyIsSpace, isLineBoundary, List.rdropWhile,
      List.intercalate, List.intersperse]
  have h4 : clean_latex ['\\', 'a', 'b', 'c'] = [] := by
    simp [clean_latex, removeComments, removeEnvs, envsToRemove, beginPat, endPat, subPair,
      subDelim, dropThroughFirst, subInline, dropToDollar, subCmdArgs, subCmdBare,
      dropBracketOpt, scanClassToBracket, dropBraceOpt, dropToBrace, removeBraces,
      stripLines, pySplitlines, pyStrip, pyIsSpace, isLineBoundary, List.rdropWhile,
      List.intercalate, List.intersperse]
  constructor
  · rw [h1, h2]; simp
  · rw [h3, h4]; simp

/-- C7 amended: the Cleaner is idempotent on every input whose cleaned form
contains no backslash and does not end in a newline.  (Brace or math removal
can glue `\` onto letters — e.g. `\{abc` cleans to `\abc`, which the second
pass deletes as a command token — and a cleaned text ending in a newline
loses its final blank line on the second pass; the counterexample exhibits
both failures.) -/
theorem c7_idempotent_amended (l : List Char) (hbt : '\\' ∉ clean_latex l)
    (hnl : (clean_latex l).getLast? ≠ some '\n') :
    clean_latex (clean_latex l) = clean_latex l := by
  have hT : clean_latex l =
      stripLines (removeBraces (subCmdBare (subCmdArgs (subInline
        (subPair "\\[".data "\\]".data
          (subPair "$$".data "$$".data (removeEnvs (removeComments l)))))))) := rfl
  have hpct : '%' ∉ clean_latex l := by
    rw [hT]
    intro hm
    rcases stripLines_mem _ '%' hm with h | h
    · have hp1 : '%' ∉ removeComments l := removeComments_no_percent l
      exact hp1 ((removeEnvs_sublist _).subset ((subPair_sublist _ _ _).subset
        ((subPair_sublist _ _ _).subset ((subInline_sublist _).subset
        ((subCmdArgs_sublist _).subset ((subCmdBare_sublist _).subset
        ((removeBraces_sublist _).subset h)))))))
    · exact absurd h (by decide)
  have hbro : '\x7b' ∉ clean_latex l ∧ '\x7d' ∉ clean_latex l := by
    have hrb := removeBraces_no_brace (subCmdBare (subCmdArgs (subInline
      (subPair "\\[".data "\\]".data
        (subPair "$$".data "$$".data (removeEnvs (removeComments l)))))))
    constructor <;>
    · rw [hT]
      intro hm
      rcases stripLines_mem _ _ hm with h | h
      · first
        | exact hrb.1 h
        | exact hrb.2 h
      · exact absurd h (by decide)
  have hdt : dollarOK (clean_latex l) := by
    rw [hT]
    apply dollarOK_stripLines
    show dollarOK ((subCmdBare (subCmdArgs (subInline (subPair "\\[".data "\\]".data
      (subPair "$$".data "$$".data (removeEnvs (removeComments l))))))).filter _)
    apply dollarOK_filter _ (by decide)
    apply dollarOK_subCmdBare
    apply dollarOK_subCmdArgs
    exact subInline_dollarOK _
  set t := clean_latex l with htdef
  show clean_latex t = t
  unfold clean_latex
  simp only []
  rw [removeComments_id _ hpct, removeEnvs_id _ hbt]
  have hdol : subPair "$$".data "$$".data t = t := by
    show subDelim '$' ['$'] "$$".data t = t
    exact subDelim_dollar_id _ _ hdt
  rw [hdol, subPair_bs_id "\\[".data "\\]".data _ rfl hbt, subInline_id _ hdt,
    subCmdArgs_id _ hbt, subCmdBare_id _ hbt, removeBraces_id _ hbro.1 hbro.2]
  conv_lhs => rw [hT]
  conv_rhs => rw [hT]
  refine stripLines_idem _ ?_
  rw [← hT]
  exact hnl

theorem c7_idempotent_amended_witness :
    '\\' ∉ clean_latex "hello % wor$ld".data ∧
    (clean_latex "hello % wor$ld".data).getLast? ≠ some '\n' ∧
    clean_latex (clean_latex "hello % wor$ld".data) = clean_latex "hello % wor$ld".data := by
  have hc : clean_latex "hello % wor$ld".data = "hello".data := by
    simp [clean_latex, removeComments, removeEnvs, envsToRemove, beginPat, endPat, subPair,
      subDelim, dropThroughFirst, subInline, dropToDollar, subCmdArgs, subCmdBare,
      dropBracketOpt, scanClassToBracket, dropBraceOpt, dropToBrace, removeBraces,
      stripLines, pySplitlines, pyStrip, pyIsSpace, isLineBoundary, List.rdropWhile,
      List.intercalate, List.intersperse]
  refine ⟨?_, ?_, c7_idempotent_amended _ ?_ ?_⟩ <;>
  · rw [hc]
    decide
